import Mathlib

/-!
Verification of the AmoraDB storage-and-query engine against its natural-language
specification.  The JavaScript sources (`Query.js`, `Table.js`, `IndexManager.js`)
are shallowly embedded below: records are association lists of fields over a value
fragment of JavaScript (integers, strings, booleans), JS `Map`s/`Set`s become
association lists / duplicate-free lists preserving insertion order, and the
asynchronous file operations become explicit state passing over an optional list
of parsed lines.  Floating-point arithmetic is modelled exactly over `Rat`
(the claims under scrutiny never exercise IEEE rounding), and mixed-type JS
comparisons / `Date.parse` coercions are outside the modelled value fragment:
every concrete input used below compares values of one type only.
-/

/-- The modelled fragment of JavaScript values: numbers (integers), strings and
booleans.  Nested objects, floats and dates are not exercised by the claims. -/
inductive Val where
  | i : Int → Val
  | s : String → Val
  | b : Bool → Val
deriving DecidableEq, Repr

/-- JS truthiness on the modelled fragment (`0`, `""` and `false` are falsy). -/
def Val.truthy : Val → Bool
  | .i n => n ≠ 0
  | .s st => st ≠ ""
  | .b bv => bv

/-- Lexicographic comparison of character lists by code point — JS string `<`
(the states considered use ASCII ids, where UTF-16 units and code points
coincide). -/
def charListLt : List Char → List Char → Bool
  | [], [] => false
  | [], _ :: _ => true
  | _ :: _, [] => false
  | c :: cs, d :: ds =>
    if c.toNat < d.toNat then true
    else if d.toNat < c.toNat then false
    else charListLt cs ds

/-- JS `<` restricted to same-type operands (numeric / lexicographic); a
mixed-type comparison never appears in the states considered and is modelled
as `false`. -/
def Val.ltB : Val → Val → Bool
  | .i a, .i bv => a < bv
  | .s a, .s bv => charListLt a.data bv.data
  | _, _ => false

/-- JS `<=` on the modelled fragment. -/
def Val.leB (a bv : Val) : Bool := Val.ltB a bv || a == bv

/-- A record: an association list of field names to values.  Field lookup takes
the first binding; records built by the engine have unique keys. -/
abbrev Rec := List (String × Val)

/-- `record[key]` — JS property access, `none` playing the role of `undefined`. -/
def getF (r : Rec) (k : String) : Option Val :=
  match r with
  | [] => none
  | (k', v) :: rest => if k' = k then some v else getF rest k

/-- Object-spread override `{...r, k: v}`: replace the first binding of `k`
(keeping its position) or append a fresh one. -/
def recSet (r : Rec) (k : String) (v : Val) : Rec :=
  match r with
  | [] => [(k, v)]
  | (k', v') :: rest => if k' = k then (k, v) :: rest else (k', v') :: recSet rest k v

/-- Remove a key.  (JS sets the key to `undefined` instead; for every lookup the
engine performs the two are indistinguishable, see `getF`.) -/
def recRemove (r : Rec) (k : String) : Rec :=
  r.filter (fun p => p.1 ≠ k)

/-- Object spread `{...r, ...u}`. -/
def recMerge (r u : Rec) : Rec :=
  u.foldl (fun acc p => recSet acc p.1 p.2) r

/-- JS `<` between two possibly-undefined field values (`undefined` compares
`false` against everything, as its numeric coercion is `NaN`). -/
def jsLt : Option Val → Option Val → Bool
  | some a, some bv => Val.ltB a bv
  | _, _ => false

/-- Association-list lookup (JS `Map.get`). -/
def alookup {κ β : Type} [DecidableEq κ] (l : List (κ × β)) (k : κ) : Option β :=
  match l with
  | [] => none
  | (k', v) :: rest => if k' = k then some v else alookup rest k

/-- Association-list update (JS `Map.set`): replace in place or append. -/
def aset {κ β : Type} [DecidableEq κ] (l : List (κ × β)) (k : κ) (v : β) : List (κ × β) :=
  match l with
  | [] => [(k, v)]
  | (k', v') :: rest => if k' = k then (k, v) :: rest else (k', v') :: aset rest k v

/-- Association-list removal (JS `Map.delete`). -/
def adel {κ β : Type} [DecidableEq κ] (l : List (κ × β)) (k : κ) : List (κ × β) :=
  l.filter (fun p => p.1 ≠ k)

/-- JS `Set.add`: append unless already present (preserves insertion order). -/
def addS (l : List Val) (x : Val) : List Val :=
  if l.contains x then l else l ++ [x]

/-- JS `Set` removal. -/
def delS (l : List Val) (x : Val) : List Val :=
  l.filter (fun y => y ≠ x)

/-! ### Cache

Modelled from the spec: `SimpleCache.js` is not among the provided source files
(only its callers are).  Section 4.1 of the spec describes it as a bounded
key→record map with least-recently-used eviction; entries are kept here in
most-recently-used-first order. -/

/-- Modelled from the spec: the bounded LRU cache of §4.1 (`SimpleCache` source
missing).  `entries` is MRU-first. -/
structure Cache where
  entries : List (Val × Rec)
  capacity : Nat
deriving Repr

/-- Modelled from the spec: `set(id, record)` inserts or refreshes recency,
evicting the least-recently-used entry if at capacity. -/
def Cache.put (c : Cache) (id : Val) (r : Rec) : Cache :=
  let without := c.entries.filter (fun p => p.1 ≠ id)
  let room := if without.length ≥ c.capacity then without.dropLast else without
  ⟨(id, r) :: room, c.capacity⟩

/-- Modelled from the spec: lookup (the recency refresh performed by a cache hit
does not change the value returned and is dropped from the pure model). -/
def Cache.find (c : Cache) (id : Val) : Option Rec :=
  alookup c.entries id

/-- Modelled from the spec: `delete(id)`. -/
def Cache.del (c : Cache) (id : Val) : Cache :=
  ⟨adel c.entries id, c.capacity⟩

/-! ### Index Manager (`IndexManager.js`) -/

/-- One `{value, id}` entry of a sorted index. -/
structure SEntry where
  value : Val
  id : Val
deriving DecidableEq, Repr

/-- The sorted-index representation: the ordered `values` array and the
`id → value` map. -/
structure SortedIdx where
  values : List SEntry
  idmap : List (Val × Val)
deriving DecidableEq, Repr

/-- A per-field index: hash (value → set of ids) or sorted. -/
inductive Idx where
  | hash : List (Val × List Val) → Idx
  | sorted : SortedIdx → Idx
deriving DecidableEq, Repr

/-- The index manager's state: field → index, in creation order. -/
abbrev IdxMap := List (String × Idx)

/-- `getFieldValue(record, field)`: dot-separated nested paths are not modelled
(the value fragment has no nested objects; every claim uses flat fields). -/
def getFieldValue (r : Rec) (f : String) : Option Val := getF r f

/-- `typeof value === 'number' || !isNaN(Date.parse(value))` on the modelled
fragment: integers are numeric; the strings appearing in the considered states
are not date-parseable, and `Date.parse` of booleans is `NaN`. -/
def isNumericOrDateV : Val → Bool
  | .i _ => true
  | _ => false

/-- The sampling loop of `isNumericOrDateField`: walk records, count present
values and numeric ones, stop after 10 samples; returns (samples, numeric). -/
def sampleField (data : List (Val × Rec)) (f : String) (s n : Nat) : Nat × Nat :=
  match data with
  | [] => (s, n)
  | (_, r) :: rest =>
    match getFieldValue r f with
    | some v =>
      let n' := if isNumericOrDateV v then n + 1 else n
      let s' := s + 1
      if s' ≥ 10 then (s', n') else sampleField rest f s' n'
    | none => sampleField rest f s n

/-- `isNumericOrDateField(data, field)`. -/
def isNumericOrDateField (data : List (Val × Rec)) (f : String) : Bool :=
  if data.length = 0 then false
  else
    let (s, n) := sampleField data f 0 0
    s > 0 && n = s

/-- Stable insertion of an entry into a value-sorted list: placed after all
entries with value ≤ its own, matching the (stable) JS `Array.prototype.sort`
under the value-only comparator of `createIndex`. -/
def insEntryByValue (e : SEntry) : List SEntry → List SEntry
  | [] => [e]
  | x :: xs => if Val.ltB e.value x.value then e :: x :: xs else x :: insEntryByValue e xs

/-- The stable value-only sort used when a sorted index is created. -/
def sortEntriesByValue (l : List SEntry) : List SEntry :=
  l.foldl (fun acc e => insEntryByValue e acc) []

/-- The hash-index build loop of `createIndex`: group ids per exact value,
buckets created in first-seen order, ids appended. -/
def hashBuild (data : List (Val × Rec)) (f : String) : List (Val × List Val) :=
  data.foldl
    (fun idx (p : Val × Rec) =>
      match getFieldValue p.2 f with
      | some v =>
        match alookup idx v with
        | some bucket => aset idx v (addS bucket p.1)
        | none => idx ++ [(v, [p.1])]
      | none => idx)
    []

/-- `createIndex(field, data)`: sorted index when the sampled values are
uniformly numeric-or-date-like, hash index otherwise. -/
def createIndexT (data : List (Val × Rec)) (f : String) : Idx :=
  if isNumericOrDateField data f then
    let entries := data.filterMap
      (fun p => (getFieldValue p.2 f).map (fun v => SEntry.mk v p.1))
    Idx.sorted ⟨sortEntriesByValue entries,
      data.filterMap (fun p => (getFieldValue p.2 f).map (fun v => (p.1, v)))⟩
  else
    Idx.hash (hashBuild data f)

/-- The loop of `binarySearch(arr, value, id)`.  The window shrinks strictly on
every iteration, so `arr.length + 1` units of fuel are never exhausted; the
running bounds are `Int`s exactly as in the source (`right` may reach `-1`). -/
def bsGo (arr : List SEntry) (value id : Val) : Nat → Int → Int → Int
  | 0, _, _ => -1
  | fuel + 1, left, right =>
    if left ≤ right then
      let mid : Int := (left + right) / 2
      match arr.get? mid.toNat with
      | none => -1
      | some e =>
        if e.value = value && e.id = id then mid
        else if Val.ltB e.value value || (e.value = value && Val.ltB e.id id) then
          bsGo arr value id fuel (mid + 1) right
        else
          bsGo arr value id fuel left (mid - 1)
    else -1

/-- `binarySearch(arr, value, id)` → index or `-1`. -/
def binarySearchT (arr : List SEntry) (value id : Val) : Int :=
  bsGo arr value id (arr.length + 1) 0 ((arr.length : Int) - 1)

/-- The loop of `findInsertPosition(arr, value)` (upper bound by value). -/
def fipGo (arr : List SEntry) (value : Val) : Nat → Nat → Nat → Nat
  | 0, left, _ => left
  | fuel + 1, left, right =>
    if left < right then
      let mid := (left + right) / 2
      match arr.get? mid with
      | none => left
      | some e =>
        if Val.leB e.value value then fipGo arr value fuel (mid + 1) right
        else fipGo arr value fuel left mid
    else left

/-- `findInsertPosition(arr, value)`. -/
def findInsertPositionT (arr : List SEntry) (value : Val) : Nat :=
  fipGo arr value (arr.length + 1) 0 arr.length

/-- `Array.prototype.splice(i, 0, e)` — insert at position (append if beyond). -/
def insertAt {α : Type} : List α → Nat → α → List α
  | l, 0, a => a :: l
  | [], _ + 1, a => [a]
  | x :: xs, n + 1, a => x :: insertAt xs n a

/-- `updateSortedIndex(field, index, id, oldRecord, newRecord)`. -/
def updateSortedIndexT (f : String) (si : SortedIdx) (id : Val)
    (oldR newR : Option Rec) : SortedIdx :=
  let si1 :=
    if oldR.isSome || (alookup si.idmap id).isSome then
      let oldValue := match oldR with
        | some orec => getFieldValue orec f
        | none => alookup si.idmap id
      match oldValue with
      | some ov =>
        let ix := binarySearchT si.values ov id
        let values' := if ix ≥ 0 then si.values.eraseIdx ix.toNat else si.values
        ⟨values', adel si.idmap id⟩
      | none => si
    else si
  match newR with
  | some nrec =>
    match getFieldValue nrec f with
    | some nv =>
      let p := findInsertPositionT si1.values nv
      ⟨insertAt si1.values p ⟨nv, id⟩, aset si1.idmap id nv⟩
    | none => si1
  | none => si1

/-- `updateHashIndex(field, index, id, oldRecord, newRecord)`. -/
def updateHashIndexT (f : String) (h : List (Val × List Val)) (id : Val)
    (oldR newR : Option Rec) : List (Val × List Val) :=
  let h1 :=
    match oldR with
    | some orec =>
      match getFieldValue orec f with
      | some ov =>
        match alookup h ov with
        | some bucket =>
          let b' := delS bucket id
          if b'.length = 0 then adel h ov else aset h ov b'
        | none => h
      | none => h
    | none => h
  match newR with
  | some nrec =>
    match getFieldValue nrec f with
    | some nv =>
      match alookup h1 nv with
      | some bucket => aset h1 nv (addS bucket id)
      | none => h1 ++ [(nv, [id])]
    | none => h1
  | none => h1

/-- `updateIndices(id, oldRecord, newRecord)` over every existing index. -/
def updateIndicesT (im : IdxMap) (id : Val) (oldR newR : Option Rec) : IdxMap :=
  im.map (fun (p : String × Idx) =>
    match p.2 with
    | .sorted si => (p.1, Idx.sorted (updateSortedIndexT p.1 si id oldR newR))
    | .hash h => (p.1, Idx.hash (updateHashIndexT p.1 h id oldR newR)))

/-- `removeFromIndices(id, record)`. -/
def removeFromIndicesT (im : IdxMap) (id : Val) (r : Rec) : IdxMap :=
  updateIndicesT im id (some r) none

/-- The sorted-index scan of `findByIndex`: collect ids while values equal the
probe, stop at the first larger value. -/
def fbiScan (l : List SEntry) (v : Val) (acc : List Val) : List Val :=
  match l with
  | [] => acc
  | e :: es =>
    if e.value = v then fbiScan es v (addS acc e.id)
    else if Val.ltB v e.value then acc
    else fbiScan es v acc

/-- `findByIndex(field, value)` → set of ids, `null` if the field is unindexed. -/
def findByIndexT (im : IdxMap) (f : String) (v : Val) : Option (List Val) :=
  match alookup im f with
  | none => none
  | some (.sorted si) => some (fbiScan si.values v [])
  | some (.hash h) => some ((alookup h v).getD [])

/-- The scan of `findByRange`: skip while below `min`, stop once beyond `max`,
respecting the inclusivity flags. -/
def fbrScan (l : List SEntry) (mn mx : Option Val) (incMin incMax : Bool)
    (acc : List Val) : List Val :=
  match l with
  | [] => acc
  | e :: es =>
    if (match mn with
        | some m => if incMin then Val.ltB e.value m else Val.leB e.value m
        | none => false) then
      fbrScan es mn mx incMin incMax acc
    else if (match mx with
        | some m => if incMax then Val.ltB m e.value else Val.leB m e.value
        | none => false) then
      acc
    else
      fbrScan es mn mx incMin incMax (addS acc e.id)

/-- `findByRange(field, min, max, includeMin, includeMax)`; `null` unless the
field carries a sorted index. -/
def findByRangeT (im : IdxMap) (f : String) (mn mx : Option Val)
    (incMin incMax : Bool) : Option (List Val) :=
  match alookup im f with
  | some (.sorted si) => some (fbrScan si.values mn mx incMin incMax [])
  | _ => none

/-- `getIndexType(field)` → `"hash"` / `"sorted"` / absent. -/
def getIndexTypeT (im : IdxMap) (f : String) : Option String :=
  match alookup im f with
  | some (.sorted _) => some "sorted"
  | some (.hash _) => some "hash"
  | none => none

/-- `hasIndex(field)`. -/
def hasIndexT (im : IdxMap) (f : String) : Bool :=
  (alookup im f).isSome

/-! ### Table state (`Table.js`) -/

/-- The in-memory and durable state of one table.  `fileLines` is the parsed
content of the append-only `<name>.jsonl` file (`none` = file absent, a `none`
line = blank or malformed, skipped by every reader); `tempFile` is the
compaction temporary. -/
structure TState where
  data : List (Val × Rec)
  cache : Cache
  indices : IdxMap
  pendingWrites : List Rec
  pendingUpdates : List (Val × Rec)
  pendingDeletes : List Val
  deletedIds : List Val
  fileLines : Option (List (Option Rec))
  tempFile : Option (List Rec)
  recordCount : Nat
  batchSize : Nat

/-- `pendingUpdates.get(id)`. -/
def puLookup (st : TState) (id : Val) : Option Rec := alookup st.pendingUpdates id

/-- `data.get(id)`. -/
def dataLookup (st : TState) (id : Val) : Option Rec := alookup st.data id

/-- `pendingDeletes.has(record._id)` where `record._id` may be `undefined`. -/
def pdHasO (st : TState) (oid : Option Val) : Bool :=
  match oid with
  | some id => st.pendingDeletes.contains id
  | none => false

/-- `pendingUpdates.get(record._id) || record` for a possibly-id-less record. -/
def puOverlayO (st : TState) (r : Rec) : Rec :=
  match getF r "_id" with
  | some id => (puLookup st id).getD r
  | none => r

/-! ### Query engine (`Query.js`) -/

/-- The operator object of a predicate clause (`$regex` is not modelled: no
claim exercises it). -/
structure OpObj where
  qEq : Option Val
  qNe : Option Val
  qGt : Option Val
  qGte : Option Val
  qLt : Option Val
  qLte : Option Val
  qIn : Option (List Val)
  qNin : Option (List Val)
  qExists : Option Bool

/-- The all-absent operator object. -/
def OpObj.none' : OpObj := ⟨none, none, none, none, none, none, none, none, none⟩

/-- An `{$eq: v}` operator object. -/
def opEq (v : Val) : OpObj := { OpObj.none' with qEq := some v }

/-- A clause value: a literal (implicit equality) or an operator object. -/
inductive CondV where
  | lit : Val → CondV
  | op : OpObj → CondV

/-- `evaluateOperator(fieldValue, operator)`: sequential early-return checks in
source order — the first operator key present decides the result. -/
def evaluateOperatorT (fv : Option Val) (o : OpObj) : Bool :=
  if o.qEq.isSome then fv == o.qEq
  else if o.qNe.isSome then fv != o.qNe
  else if o.qGt.isSome then jsLt o.qGt fv
  else if o.qGte.isSome then jsLt o.qGte fv || fv == o.qGte
  else if o.qLt.isSome then jsLt fv o.qLt
  else if o.qLte.isSome then jsLt fv o.qLte || fv == o.qLte
  else if o.qIn.isSome then
    match fv, o.qIn with
    | some v, some l => l.contains v
    | _, _ => false
  else if o.qNin.isSome then
    match fv, o.qNin with
    | some v, some l => !l.contains v
    | none, some _ => true
    | _, _ => true
  else if o.qExists.isSome then some fv.isSome == (o.qExists.map (fun bv => bv))
  else true

/-- `buildCondition(obj)`: conjunction over the object's entries; a literal
entry is a strict-equality test. -/
def buildConditionT (obj : List (String × CondV)) : Rec → Bool :=
  fun r => obj.all (fun p =>
    match p.2 with
    | .op o => evaluateOperatorT (getF r p.1) o
    | .lit v => getF r p.1 == some v)

/-- The classification of an index-eligible clause. -/
inductive CType where
  | exact : CType
  | range : CType
deriving DecidableEq

/-- One entry of `indexableConditions`. -/
structure IdxCond where
  field : String
  cond : OpObj
  ctype : CType

/-- The incrementally built query state. -/
structure QState where
  conditions : List (Rec → Bool)
  idxConds : List IdxCond
  nonIdx : List (Rec → Bool)
  sortField : Option String
  sortOrder : String
  limit : Option Nat
  skip : Nat
  select : Option (List String)

/-- A fresh query (`new Query(...)`). -/
def emptyQuery : QState :=
  ⟨[], [], [], none, "asc", none, 0, none⟩

/-- `analyzeCondition(obj)`: classify each entry as index-eligible (exact or
range) or residual, mirroring the source's branching. -/
def analyzeConditionT (im : IdxMap) (q : QState) (obj : List (String × CondV)) : QState :=
  obj.foldl
    (fun q p =>
      if hasIndexT im p.1 then
        match p.2 with
        | .op o =>
          let hasRangeOp := o.qGt.isSome || o.qGte.isSome || o.qLt.isSome || o.qLte.isSome
          if getIndexTypeT im p.1 = some "sorted" && hasRangeOp then
            { q with idxConds := q.idxConds ++ [⟨p.1, o, CType.range⟩] }
          else if o.qEq.isSome || o.qIn.isSome then
            { q with idxConds := q.idxConds ++ [⟨p.1, o, CType.exact⟩] }
          else
            { q with nonIdx := q.nonIdx ++ [buildConditionT [p]] }
        | .lit v =>
          { q with idxConds := q.idxConds ++ [⟨p.1, opEq v, CType.exact⟩] }
      else
        { q with nonIdx := q.nonIdx ++ [buildConditionT [p]] })
    q

/-- `where(conditionObject)`. -/
def whereObjT (im : IdxMap) (q : QState) (obj : List (String × CondV)) : QState :=
  let f := buildConditionT obj
  analyzeConditionT im { q with conditions := q.conditions ++ [f] } obj

/-- `where(fn)` for a function condition. -/
def whereFnT (q : QState) (f : Rec → Bool) : QState :=
  { q with conditions := q.conditions ++ [f], nonIdx := q.nonIdx ++ [f] }

/-- `or(condition)`: pop the most recent combined clause from `conditions`,
push its disjunction with the new clause onto both `conditions` and
`nonIndexableConditions` (the popped clause is *not* removed from
`nonIndexableConditions` or `indexableConditions`). -/
def orT (q : QState) (cf : Rec → Bool) : QState :=
  match q.conditions.getLast? with
  | none => q
  | some prev =>
    let oc := fun r => prev r || cf r
    { q with conditions := q.conditions.dropLast ++ [oc],
             nonIdx := q.nonIdx ++ [oc] }

/-- The per-clause id set of `getIndexCandidateSet`. -/
def clauseIds (im : IdxMap) (c : IdxCond) : List Val :=
  match c.ctype with
  | .range =>
    let mn := if c.cond.qGt.isSome then c.cond.qGt else c.cond.qGte
    let mx := if c.cond.qLt.isSome then c.cond.qLt else c.cond.qLte
    ((findByRangeT im c.field mn mx c.cond.qGte.isSome c.cond.qLte.isSome).getD [])
  | .exact =>
    match c.cond.qEq with
    | some v =>
      match findByIndexT im c.field v with
      | some ids => ids.foldl addS []
      | none => []
    | none =>
      match c.cond.qIn with
      | some vs =>
        vs.foldl (fun acc v =>
          match findByIndexT im c.field v with
          | some ids => ids.foldl addS acc
          | none => acc) []
      | none => []

/-- The intersection loop of `getIndexCandidateSet` (breaks once empty). -/
def gicGo (im : IdxMap) : List IdxCond → Option (List Val) → Option (List Val)
  | [], acc => acc
  | c :: cs, acc =>
    let ids := clauseIds im c
    match acc with
    | none => gicGo im cs (some ids)
    | some prev =>
      let inter := ids.foldl (fun a id => if prev.contains id then addS a id else a) []
      if inter.isEmpty then some inter else gicGo im cs (some inter)

/-- `getIndexCandidateSet()` → `null` when no clause is index-eligible. -/
def getIndexCandidateSetT (im : IdxMap) (q : QState) : Option (List Val) :=
  if q.idxConds.isEmpty then none else gicGo im q.idxConds none

/-- The file scan of `loadRecordById`: first parsed line with the wanted id. -/
def fileFind (st : TState) (id : Val) : List (Option Rec) → Option Rec
  | [] => none
  | none :: ls => fileFind st id ls
  | some r :: ls =>
    if getF r "_id" == some id && !st.deletedIds.contains id then some r
    else fileFind st id ls

/-- `loadRecordById(id)`: deletion markers → pendingUpdates → data → cache →
streamed file lookup. -/
def loadRecordByIdT (st : TState) (id : Val) : Option Rec :=
  if st.deletedIds.contains id || st.pendingDeletes.contains id then none
  else match puLookup st id with
  | some r => some r
  | none =>
    match dataLookup st id with
    | some r => some r
    | none =>
      match st.cache.find id with
      | some r => some r
      | none => fileFind st id (st.fileLines.getD [])

/-- `executeWithIndex(candidateSet)`: resolve each candidate id, skipping
pending deletes, through pendingUpdates → data → point lookup. -/
def executeWithIndexT (st : TState) (cs : List Val) : List Rec :=
  cs.filterMap (fun id =>
    if st.pendingDeletes.contains id then none
    else match puLookup st id with
    | some r => some r
    | none =>
      match dataLookup st id with
      | some r => some r
      | none => loadRecordByIdT st id)

/-- The full in-memory scan of `execute`: resident map overlaid with pending
updates and deletes, then the pending-write buffer (deletes respected). -/
def memScan (st : TState) : List Rec :=
  (st.data.filterMap (fun p =>
    if st.pendingDeletes.contains p.1 then none
    else some ((puLookup st p.1).getD p.2)))
  ++ st.pendingWrites.filter (fun r => !pdHasO st (getF r "_id"))

/-- The line loop of `streamResults` with its processed-count cap. -/
def srGo (st : TState) (mx : Option Nat) : List (Option Rec) → Nat → List Rec
  | [], _ => []
  | l :: ls, cnt =>
    if (match mx with | some m => decide (cnt ≥ m) | none => false) then []
    else match l with
    | none => srGo st mx ls cnt
    | some r =>
      if pdHasO st (getF r "_id") then srGo st mx ls cnt
      else puOverlayO st r :: srGo st mx ls (cnt + 1)

/-- `streamResults()`: streamed pass over the durable file overlaid with
pending updates/deletes, then the pending-write buffer. -/
def streamResultsT (st : TState) (q : QState) : List Rec :=
  let mx : Option Nat :=
    match q.limit with
    | some k => if k = 0 then none else some ((k + q.skip) * 2)
    | none => none
  srGo st mx (st.fileLines.getD []) 0
  ++ st.pendingWrites.filter (fun r => !pdHasO st (getF r "_id"))

/-- The full-sort comparator of `sortResults`. -/
def fullCmp (q : QState) (a bv : Rec) : Int :=
  let av := getF a (q.sortField.getD "")
  let bvv := getF bv (q.sortField.getD "")
  if av == bvv then 0
  else
    let c : Int := if jsLt av bvv then -1 else 1
    if q.sortOrder = "asc" then c else -c

/-- The heap comparator of `heapSort` (note: the order test is the reverse of
`fullCmp`'s). -/
def heapCmp (q : QState) (a bv : Rec) : Int :=
  let av := getF a (q.sortField.getD "")
  let bvv := getF bv (q.sortField.getD "")
  if av == bvv then 0
  else
    let c : Int := if jsLt av bvv then -1 else 1
    if q.sortOrder = "desc" then c else -c

/-- Stable insertion under an integer comparator. -/
def insByCmp (cmp : Rec → Rec → Int) : List Rec → Rec → List Rec
  | [], x => [x]
  | y :: ys, x => if cmp x y < 0 then x :: y :: ys else y :: insByCmp cmp ys x

/-- Stable sort under an integer comparator — the unique stable order JS
`Array.prototype.sort` produces for a consistent comparator. -/
def stableSortBy (cmp : Rec → Rec → Int) (l : List Rec) : List Rec :=
  l.foldl (fun acc x => insByCmp cmp acc x) []

/-- `bubbleUp(heap, index, compare)`; the index strictly decreases, so `index`
units of fuel always suffice. -/
def bubbleUpT (cmp : Rec → Rec → Int) : Nat → List Rec → Nat → List Rec
  | 0, heap, _ => heap
  | fuel + 1, heap, index =>
    if index = 0 then heap
    else
      let parent := (index - 1) / 2
      match heap.get? index, heap.get? parent with
      | some hi, some hp =>
        if cmp hi hp ≥ 0 then heap
        else bubbleUpT cmp fuel ((heap.set index hp).set parent hi) parent
      | _, _ => heap

/-- `bubbleDown(heap, index, compare)`; the index strictly increases below
`heap.length`, so `heap.length` units of fuel always suffice. -/
def bubbleDownT (cmp : Rec → Rec → Int) : Nat → List Rec → Nat → List Rec
  | 0, heap, _ => heap
  | fuel + 1, heap, index =>
    let len := heap.length
    let left := 2 * index + 1
    let right := 2 * index + 2
    let s1 := if left < len then
        match heap.get? left, heap.get? index with
        | some hl, some hs => if cmp hl hs < 0 then left else index
        | _, _ => index
      else index
    let s2 := if right < len then
        match heap.get? right, heap.get? s1 with
        | some hr, some hs => if cmp hr hs < 0 then right else s1
        | _, _ => s1
      else s1
    if s2 = index then heap
    else
      match heap.get? index, heap.get? s2 with
      | some hi, some hs => bubbleDownT cmp fuel ((heap.set index hs).set s2 hi) s2
      | _, _ => heap

/-- The heap-filling loop of `heapSort`. -/
def heapFill (cmp : Rec → Rec → Int) (k : Nat) (arr : List Rec) : List Rec :=
  arr.foldl
    (fun heap x =>
      if heap.length < k then
        bubbleUpT cmp heap.length (heap ++ [x]) (heap.length + 1 - 1)
      else
        match heap with
        | [] => heap
        | h0 :: rest => if cmp x h0 < 0 then bubbleDownT cmp (rest.length + 1) (x :: rest) 0 else heap)
    []

/-- `heapSort(arr, k)`: bounded heap selection, final sort by the negated heap
comparator, then overwrite of the first `min k heap.length` positions. -/
def heapSortT (q : QState) (k : Nat) (arr : List Rec) : List Rec :=
  let heap := heapFill (heapCmp q) k arr
  let sortedHeap := stableSortBy (fun a bv => -(heapCmp q a bv)) heap
  let m := min k sortedHeap.length
  sortedHeap.take m ++ arr.drop m

/-- `sortResults(results)`: bounded heap selection when a nonzero limit is set,
skip is zero and the limit is under a tenth of the result count; full stable
sort otherwise. -/
def sortResultsT (q : QState) (results : List Rec) : List Rec :=
  match q.limit with
  | some k =>
    if k ≠ 0 && q.skip = 0 && 10 * k < results.length then heapSortT q k results
    else stableSortBy (fullCmp q) results
  | none => stableSortBy (fullCmp q) results

/-- `projectFields(results)`: retain only the requested fields present on the
record. -/
def projectT (fs : List String) (results : List Rec) : List Rec :=
  results.map (fun r =>
    fs.foldl (fun acc f =>
      match getF r f with
      | some v => acc ++ [(f, v)]
      | none => acc) [])

/-- `execute()`: candidate resolution (index path, streamed scan, or in-memory
scan), residual filters, sort, skip, limit, projection. -/
def executeQ (st : TState) (q : QState) : List Rec :=
  let cand := getIndexCandidateSetT st.indices q
  match cand with
  | some cs =>
    if cs.isEmpty then []
    else
      let base := executeWithIndexT st cs
      let r1 := q.nonIdx.foldl (fun acc f => acc.filter f) base
      let r2 := if q.sortField.isSome then sortResultsT q r1 else r1
      let r3 := r2.drop q.skip
      let r4 := match q.limit with | some k => r3.take k | none => r3
      match q.select with | some fs => projectT fs r4 | none => r4
  | none =>
    let base :=
      if st.data.length < st.recordCount then streamResultsT st q
      else memScan st
    let r1 := q.nonIdx.foldl (fun acc f => acc.filter f) base
    let r2 := if q.sortField.isSome then sortResultsT q r1 else r1
    let r3 := r2.drop q.skip
    let r4 := match q.limit with | some k => r3.take k | none => r3
    match q.select with | some fs => projectT fs r4 | none => r4

/-! ### Table mutations (`Table.js`) -/

/-- `get(id)`: deletion markers → pendingUpdates → cache → data → streamed point
lookup.  (The opportunistic cache fill on a data/file hit does not change the
returned value and is dropped from the pure model.) -/
def getT (st : TState) (id : Val) : Option Rec :=
  if st.deletedIds.contains id || st.pendingDeletes.contains id then none
  else match puLookup st id with
  | some r => some r
  | none =>
    match st.cache.find id with
    | some r => some r
    | none =>
      match dataLookup st id with
      | some r => some r
      | none => loadRecordByIdT st id

/-- `record.id || record._id || uuidv4()` — JS truthy-or chain. -/
def jsOrV (a bv : Option Val) : Option Val :=
  match a with
  | some v => if v.truthy then some v else bv
  | none => bv

/-- The id an insert assigns, given the fresh uuid to use if the record carries
none. -/
def insId (r : Rec) (freshId : Val) : Val :=
  (jsOrV (getF r "id") (jsOrV (getF r "_id") (some freshId))).getD freshId

/-- The full record an insert builds: `{...record, _id, _created, _modified}`. -/
def insFull (r : Rec) (freshId : Val) (ts : String) : Rec :=
  recSet (recSet (recSet r "_id" (insId r freshId)) "_created" (.s ts)) "_modified" (.s ts)

/-- The success path of `flushPendingWrites()`: append the buffered records to
the durable file and merge them into `data`.  (The failure path degrades to
scheduling a save and is not needed by the claims under scrutiny.) -/
def flushOkT (st : TState) : TState :=
  if st.pendingWrites.isEmpty then st
  else
    { st with
      fileLines := some ((st.fileLines.getD []) ++ st.pendingWrites.map some),
      data := st.pendingWrites.foldl
        (fun d r =>
          match getF r "_id" with
          | some idv => aset d idv r
          | none => d) st.data,
      pendingWrites := [] }

/-- `insert(record)`: assign id, stamp `_created`/`_modified`, update cache and
indices, clear deletion markers, buffer the write, flushing when the buffer
reaches the batch size. -/
def insertT (st : TState) (r : Rec) (freshId : Val) (ts : String) : TState × Rec :=
  let id := insId r freshId
  let full := insFull r freshId ts
  let st' :=
    { st with
      cache := st.cache.put id full,
      indices := updateIndicesT st.indices id none (some full),
      deletedIds := delS st.deletedIds id,
      pendingDeletes := delS st.pendingDeletes id,
      pendingWrites := st.pendingWrites ++ [full] }
  (if st'.pendingWrites.length ≥ st.batchSize then flushOkT st' else st', full)

/-- `update(id, updates)`: fetch via `get`, no-op when absent, else merge the
patch over the current value preserving `_id`/`_created` and refreshing
`_modified`, store into pendingUpdates and cache, update indices. -/
def updateT (st : TState) (id : Val) (updates : Rec) (ts : String) :
    TState × Option Rec :=
  match getT st id with
  | none => (st, none)
  | some record =>
    let oldRecord := (dataLookup st id).getD record
    let u1 := recSet (recMerge record updates) "_id" id
    let u2 := match getF record "_created" with
      | some c => recSet u1 "_created" c
      | none => recRemove u1 "_created"
    let updated := recSet u2 "_modified" (.s ts)
    ({ st with
        pendingUpdates := aset st.pendingUpdates id updated,
        cache := st.cache.put id updated,
        indices := updateIndicesT st.indices id (some oldRecord) (some updated) },
      some updated)

/-! ### Compaction (`save()`) -/

/-- Deletion test against both tombstone sets, for a possibly-absent id. -/
def isDelO (pd del : List Val) (oid : Option Val) : Bool :=
  match oid with
  | some id => pd.contains id || del.contains id
  | none => false

/-- The pending-update substitution of the compaction pass. -/
def applyPUO (pu : List (Val × Rec)) (r : Rec) : Rec :=
  match getF r "_id" with
  | some id => (alookup pu id).getD r
  | none => r

/-- The file pass of `save()`: first occurrence of each id decides; deleted ids
skipped; pending-update value substituted. -/
def filePassAux (pd del : List Val) (pu : List (Val × Rec)) :
    List (Option Rec) → List (Option Val) → List Rec
  | [], _ => []
  | none :: ls, seen => filePassAux pd del pu ls seen
  | some r :: ls, seen =>
    let oid := getF r "_id"
    if seen.contains oid then filePassAux pd del pu ls seen
    else if isDelO pd del oid then filePassAux pd del pu ls (oid :: seen)
    else applyPUO pu r :: filePassAux pd del pu ls (oid :: seen)

/-- The `processedIds` set accumulated by the file pass. -/
def seenAux : List (Option Rec) → List (Option Val) → List (Option Val)
  | [], seen => seen
  | none :: ls, seen => seenAux ls seen
  | some r :: ls, seen =>
    let oid := getF r "_id"
    if seen.contains oid then seenAux ls seen
    else seenAux ls (oid :: seen)

/-- The resident pass of `save()`: append every `data` record whose id was not
seen, subject to the same delete/update substitution. -/
def residentPass (data : List (Val × Rec)) (pd del : List Val) (pu : List (Val × Rec))
    (seen : List (Option Val)) : List Rec :=
  data.filterMap (fun p =>
    if seen.contains (some p.1) || pd.contains p.1 || del.contains p.1 then none
    else some ((alookup pu p.1).getD p.2))

/-- The full sequence of records `save()` writes to the temporary file. -/
def compactionLines (st : TState) : List Rec :=
  let lines := st.fileLines.getD []
  filePassAux st.pendingDeletes st.deletedIds st.pendingUpdates lines []
  ++ residentPass st.data st.pendingDeletes st.deletedIds st.pendingUpdates (seenAux lines [])

/-- `needsCompaction()`.  The 0.3 garbage-ratio threshold is expressed exactly
over integers; the elapsed-time condition is abstracted into `timeForced`. -/
def needsCompactionT (st : TState) (timeForced : Bool) : Bool :=
  let totalOps := st.pendingUpdates.length + st.pendingDeletes.length + st.deletedIds.length
  decide (10 * totalOps > 3 * st.recordCount) || (decide (totalOps > 10000) && timeForced)

/-- The write loop of `save()` onto the temporary file, with an injected I/O
failure point: `failAt = some j` makes the `j`-th I/O operation fail (operations
are numbered from the first record write; the operation numbered after the last
write is the stream end). -/
def writeLoop : List Rec → Nat → List Rec → Option Nat → Except Unit (List Rec)
  | [], i, acc, failAt => if failAt = some i then .error () else .ok acc
  | w :: ws, i, acc, failAt =>
    if failAt = some i then .error ()
    else writeLoop ws (i + 1) (acc ++ [w]) failAt

/-- `save()`: flush the append buffer, skip when no compaction is warranted,
else stream the old file and the resident map into the temporary file, rename
it over the durable file, fold pending updates/deletes into `data` and clear
the buffers.  Any failure before the rename unlinks the temporary file and
re-raises.  (`saveMetadata` is modelled by the `recordCount` refresh.) -/
def saveT (st0 : TState) (timeForced : Bool) (failAt : Option Nat) :
    Except Unit Unit × TState :=
  let st := flushOkT st0
  if !needsCompactionT st timeForced && st.pendingUpdates.isEmpty
      && st.pendingDeletes.isEmpty then
    (.ok (), st)
  else
    let st := { st with tempFile := some [] }
    let writes := compactionLines st
    match writeLoop writes 0 [] failAt with
    | .error () => (.error (), { st with tempFile := none })
    | .ok lines =>
      if failAt = some (writes.length + 1) then
        (.error (), { st with tempFile := none })
      else
        let st := { st with fileLines := some (lines.map some), tempFile := none }
        let d1 := st.pendingUpdates.foldl (fun d p => aset d p.1 p.2) st.data
        let d2 := st.pendingDeletes.foldl (fun d id => adel d id) d1
        (.ok (), { st with data := d2, pendingUpdates := [], pendingDeletes := [],
                           deletedIds := [], recordCount := d2.length })

/-! ### Aggregation (`aggregate(operations)`) -/

/-- One aggregation operation (`$sum` / `$avg` / `$min` / `$max` / `$count`). -/
inductive AggOp where
  | sum : String → AggOp
  | avg : String → AggOp
  | amin : String → AggOp
  | amax : String → AggOp
  | cnt : AggOp

/-- A JS number extended with the two infinities `Math.min`/`Math.max` start
from.  Arithmetic is exact over `Rat` (see the file header). -/
inductive JNum where
  | fin : ℚ → JNum
  | pinf : JNum
  | ninf : JNum
deriving DecidableEq, Repr

/-- `r[f] || 0` as a number: missing and zero both contribute `0`. -/
def jsNumOr0 (r : Rec) (f : String) : ℚ :=
  match getF r f with
  | some (.i n) => (n : ℚ)
  | _ => 0

/-- `r[f] || Infinity`: a falsy value (missing or `0`) becomes `Infinity`. -/
def minKey (r : Rec) (f : String) : JNum :=
  match getF r f with
  | some (.i n) => if n = 0 then .pinf else .fin (n : ℚ)
  | _ => .pinf

/-- `r[f] || -Infinity`: a falsy value (missing or `0`) becomes `-Infinity`. -/
def maxKey (r : Rec) (f : String) : JNum :=
  match getF r f with
  | some (.i n) => if n = 0 then .ninf else .fin (n : ℚ)
  | _ => .ninf

/-- `Math.min` on extended numbers. -/
def minJ : JNum → JNum → JNum
  | .fin a, .fin bv => .fin (min a bv)
  | .pinf, x => x
  | x, .pinf => x
  | .ninf, _ => .ninf
  | _, .ninf => .ninf

/-- `Math.max` on extended numbers. -/
def maxJ : JNum → JNum → JNum
  | .fin a, .fin bv => .fin (max a bv)
  | .ninf, x => x
  | x, .ninf => x
  | .pinf, _ => .pinf
  | _, .pinf => .pinf

/-- One aggregation over a result list, per the source's reduce/spread calls
(`Math.min()` of no arguments is `Infinity`, `Math.max()` is `-Infinity`). -/
def aggOne (results : List Rec) : AggOp → JNum
  | .sum f => .fin (results.foldl (fun s r => s + jsNumOr0 r f) 0)
  | .avg f =>
    let s := results.foldl (fun s r => s + jsNumOr0 r f) 0
    if results.length > 0 then .fin (s / (results.length : ℚ)) else .fin 0
  | .amin f => results.foldl (fun acc r => minJ acc (minKey r f)) .pinf
  | .amax f => results.foldl (fun acc r => maxJ acc (maxKey r f)) .ninf
  | .cnt => .fin (results.length : ℚ)

/-- `aggregate(operations)` over an executed result list. -/
def aggregateT (results : List Rec) (ops : List (String × AggOp)) :
    List (String × JNum) :=
  ops.map (fun p => (p.1, aggOne results p.2))

/-! ### The unindexed residual scan (spec §8) -/

/-- The unindexed residual scan of the claim: the table's visible records
filtered by the predicate directly. -/
def residualScan (st : TState) (p : Rec → Bool) : List Rec :=
  (memScan st).filter p

/-! ### Concrete states used by the counterexamples -/

/-- Record `b` with `f = 5`. -/
def cexRb5 : Rec := [("_id", .s "b"), ("f", .i 5)]

/-- Record `a` with `f = 5` (its value at insertion time). -/
def cexRa5 : Rec := [("_id", .s "a"), ("f", .i 5)]

/-- Record `a` with `f = 7` (its value after the update). -/
def cexRa7 : Rec := [("_id", .s "a"), ("f", .i 7)]

/-- The index manager after `createIndex("f")` over the single resident record
`b` (numeric sample → sorted index). -/
def cexIm0 : IdxMap := [("f", createIndexT [(.s "b", cexRb5)] "f")]

/-- ... after the insert of `a` with `f = 5` (`updateIndices(a, null, ra5)`). -/
def cexIm1 : IdxMap := updateIndicesT cexIm0 (.s "a") none (some cexRa5)

/-- ... after the update of `a` from `f = 5` to `f = 7`
(`updateIndices(a, ra5, ra7)`).  `binarySearch` misses the `(5, a)` entry —
the array is ordered by value only, not by the (value, id) order the search
assumes — so the stale pair survives. -/
def cexIm2 : IdxMap := updateIndicesT cexIm1 (.s "a") (some cexRa5) (some cexRa7)

/-- An empty ten-slot cache. -/
def cexCache : Cache := ⟨[], 10⟩

/-- C1 — code bug.  After the mutation sequence `createIndex("f")` over
`{b ↦ f:5}`, insert `a` with `f = 5`, update `a` to `f = 7` — each forwarded
synchronously to the index manager — `findByIndex("f", 5)` and
`findByRange("f", 5, 5, true, true)` both return `{b, a}`, although the current
logical value of `a` for `f` is `7`, not `5`: the claim's exactness requirement
fails because `updateSortedIndex`'s `binarySearch` assumes a (value, id)
ordering that `findInsertPosition` does not maintain, leaving a stale entry. -/
theorem indexManager_stale_sorted_entry :
    findByIndexT cexIm2 "f" (.i 5) = some [Val.s "b", Val.s "a"]
    ∧ findByRangeT cexIm2 "f" (some (.i 5)) (some (.i 5)) true true
        = some [Val.s "b", Val.s "a"]
    ∧ getFieldValue cexRa7 "f" = some (.i 7)
    ∧ (Val.i 7 : Val) ≠ .i 5 := by
  refine ⟨by decide, by decide, by decide, by decide⟩

/-- The fully-resident table state carrying the stale sorted index of
`cexIm2`: both records durable and resident, no pending state. -/
def cexStC2 : TState :=
  ⟨[(.s "b", cexRb5), (.s "a", cexRa7)], cexCache, cexIm2, [], [], [], [],
    some [some cexRb5, some cexRa7], none, 2, 1000⟩

/-- The query `find({f: {$eq: 5}})` over that table. -/
def cexQC2 : QState := whereObjT cexStC2.indices emptyQuery [("f", .op (opEq (.i 5)))]

/-- C2 — counterexample.  Over the reachable state `cexStC2` (obtained through
the indexed mutation sequence of `cexIm2`), `find({f: {$eq: 5}}).execute()`
returns both records — including `a`, whose current value is `7` — while the
unindexed residual scan with the same predicate returns only `b`: the id sets
differ, because the index path trusts the (stale) candidate set and never
re-applies the `$eq` predicate. -/
theorem find_eq_index_scan_mismatch :
    executeQ cexStC2 cexQC2 = [cexRb5, cexRa7]
    ∧ residualScan cexStC2 (buildConditionT [("f", .op (opEq (.i 5)))]) = [cexRb5]
    ∧ cexRa7 ∈ executeQ cexStC2 cexQC2
    ∧ cexRa7 ∉ residualScan cexStC2 (buildConditionT [("f", .op (opEq (.i 5)))]) := by
  refine ⟨by decide, by decide, by decide, by decide⟩

/-- Record `p` with `x = 1`. -/
def cexR1 : Rec := [("_id", .s "p"), ("x", .i 1)]

/-- Record `q` with `x = 2`. -/
def cexR2 : Rec := [("_id", .s "q"), ("x", .i 2)]

/-- A fully resident two-record table with no indices. -/
def cexStC5 : TState :=
  ⟨[(.s "p", cexR1), (.s "q", cexR2)], cexCache, [], [], [], [], [],
    some [some cexR1, some cexR2], none, 2, 1000⟩

/-- The query `where({x: 1}).or({x: 2})`. -/
def cexQC5 : QState :=
  orT (whereObjT cexStC5.indices emptyQuery [("x", .lit (.i 1))])
    (buildConditionT [("x", .lit (.i 2))])

/-- C5 — code bug.  `where({x:1}).or({x:2}).execute()` returns only the record
satisfying the first clause: `or` pops the previous clause from `conditions`
and pushes the disjunction, but `execute` filters by `nonIndexableConditions`,
where the original `{x:1}` clause still sits — so the result is
A ∧ (A ∨ B) = A, not A ∨ B as the spec states. -/
theorem or_after_where_drops_disjunct :
    executeQ cexStC5 cexQC5 = [cexR1]
    ∧ (memScan cexStC5).filter
        (fun r => buildConditionT [("x", .lit (.i 1))] r
          || buildConditionT [("x", .lit (.i 2))] r) = [cexR1, cexR2]
    ∧ cexR2 ∉ executeQ cexStC5 cexQC5 := by
  refine ⟨by decide, by decide, by decide⟩

/-- Eleven records with `x = 1, …, 11` in order. -/
def cexRecs11 : List Rec := (List.range 11).map (fun n => [("x", Val.i (n + 1 : Nat))])

/-- An ascending sort on `x` with `limit 1`, `skip 0` — `1 < 11 / 10`, so
`sortResults` takes the bounded-heap path. -/
def cexQC6 : QState :=
  { emptyQuery with sortField := some "x", sortOrder := "asc", limit := some 1 }

/-- C6 — code bug.  With limit 1, skip 0 and 11 results, the heap path of
`sortResults` puts the *maximum* first (`x = 11`), while the full comparison
sort followed by taking the first record yields the minimum (`x = 1`): the
heap comparator's order test is inverted, so the bounded selection keeps the
k worst records instead of the k best. -/
theorem heap_selection_differs_from_full_sort :
    (sortResultsT cexQC6 cexRecs11).take 1 = [[("x", Val.i 11)]]
    ∧ (stableSortBy (fullCmp cexQC6) cexRecs11).take 1 = [[("x", Val.i 1)]]
    ∧ ([[("x", Val.i 11)]] : List Rec) ≠ [[("x", Val.i 1)]] := by
  refine ⟨by decide, by decide, by decide⟩

/-- The record values of a field that are present on a record, per the claim's
reading of min/max participation (`0` included). -/
def presentVals (rs : List Rec) (f : String) : List ℚ :=
  rs.filterMap (fun r =>
    match getF r f with
    | some (.i n) => some ((n : ℚ))
    | _ => none)

/-- The minimum the claim expects: over every present value. -/
def claimMin (rs : List Rec) (f : String) : JNum :=
  (presentVals rs f).foldl (fun a q => minJ a (.fin q)) .pinf

/-- A record with `a = 0`. -/
def cexZ0 : Rec := [("a", .i 0)]

/-- A record with `a = 5`. -/
def cexZ5 : Rec := [("a", .i 5)]

/-- C7 — counterexample.  Over records with `a = 0` and `a = 5`, the `$min`
aggregation returns `5`, not the claimed `0`: `r[field] || Infinity` maps the
*present* value `0` to `Infinity` (it is falsy), so present zeroes are
excluded from min — the claim's parenthetical "present values, including 0,
participate in min/max" does not hold. -/
theorem aggregate_min_excludes_zero :
    aggOne [cexZ0, cexZ5] (.amin "a") = .fin 5
    ∧ claimMin [cexZ0, cexZ5] "a" = .fin 0
    ∧ (JNum.fin 5) ≠ .fin 0 := by
  refine ⟨by decide, by decide, by decide⟩

/-- The empty table (no durable file yet, batch size 1000). -/
def cexSt0 : TState := ⟨[], cexCache, [], [], [], [], [], none, none, 0, 1000⟩

/-- Insert of `{_id: "a", x: 1}` at time `t1`. -/
def cexIns1 : TState × Rec := insertT cexSt0 [("_id", .s "a"), ("x", .i 1)] (.s "u1") "t1"

/-- Re-insert of the same id with `x = 2` at time `t2`. -/
def cexIns2 : TState × Rec := insertT cexIns1.1 [("_id", .s "a"), ("x", .i 2)] (.s "u2") "t2"

/-- C8 — counterexample.  After inserting `{_id: "a", x: 1}` and then
re-inserting `{_id: "a", x: 2}`, query execution returns *two* records with
`_id = "a"` (one per pending write): the visible state is duplicated, not
overwritten, contradicting the claimed uniqueness invariant. -/
theorem reinsert_duplicates_query_results :
    executeQ cexIns2.1 emptyQuery = [cexIns1.2, cexIns2.2]
    ∧ getF cexIns1.2 "_id" = some (.s "a")
    ∧ getF cexIns2.2 "_id" = some (.s "a")
    ∧ cexIns1.2 ≠ cexIns2.2 := by
  refine ⟨by decide, by decide, by decide, by decide⟩

/-- Update of id `a` to `x = 9` at time `t2` (leaves a pending update). -/
def cexUpd : TState × Option Rec := updateT cexIns1.1 (.s "a") [("x", .i 9)] "t2"

/-- Re-insert of `{_id: "a", x: 3}` at time `t3`, while the pending update of
`cexUpd` is still unmerged. -/
def cexIns3 : TState × Rec := insertT cexUpd.1 [("_id", .s "a"), ("x", .i 3)] (.s "u3") "t3"

/-- C9 — counterexample.  Insert `{_id:"a", x:1}`, update it to `x = 9`, then
re-insert `{_id:"a", x:3}` and immediately fetch it: `get` returns the stale
pending-update value (`x = 9`, `_created = "t1"`, `_modified = "t2"`), not the
just-inserted record (`x = 3`), and the fetched record's `_created` differs
from its `_modified` — `insert` clears deletion markers but not pending
updates, which shadow the fresh record. -/
theorem insert_get_pendingUpdate_shadow :
    getT cexIns3.1 (.s "a")
      = some [("_id", .s "a"), ("x", .i 9), ("_created", .s "t1"), ("_modified", .s "t2")]
    ∧ getF cexIns3.2 "x" = some (.i 3)
    ∧ getT cexIns3.1 (.s "a") ≠ some cexIns3.2
    ∧ (some (Val.s "t1")) ≠ some (Val.s "t2") := by
  refine ⟨by decide, by decide, by decide, by decide⟩

/-! ### Helper lemmas -/

/-- Setting a key makes it the looked-up value. -/
theorem getF_recSet_self (r : Rec) (k : String) (v : Val) :
    getF (recSet r k v) k = some v := by
  induction r with
  | nil => simp [recSet, getF]
  | cons p rest ih =>
    by_cases h : p.1 = k
    · simp [recSet, h, getF]
    · simp [recSet, h, getF, ih]

/-- Setting one key leaves every other key's lookup unchanged. -/
theorem getF_recSet_other (r : Rec) (k k' : String) (v : Val) (h : k' ≠ k) :
    getF (recSet r k' v) k = getF r k := by
  induction r with
  | nil => simp [recSet, getF, h]
  | cons p rest ih =>
    by_cases hp : p.1 = k'
    · simp [recSet, hp, getF, h]
    · simp [recSet, hp, getF, ih]

/-- A JS-`Set` removal never contains the removed element. -/
theorem delS_contains_self (l : List Val) (x : Val) :
    (delS l x).contains x = false := by
  induction l with
  | nil => rfl
  | cons y ys ih =>
    by_cases h : y = x
    · simp only [delS, List.filter] at ih ⊢
      simp [h, ih]
    · simp only [delS, List.filter] at ih ⊢
      simp [h, ih, List.contains_cons, Ne.symm h]

/-- A cache `set` makes the entry immediately retrievable. -/
theorem cache_put_find (c : Cache) (id : Val) (r : Rec) :
    (c.put id r).find id = some r := by
  simp [Cache.put, Cache.find, alookup]

/-- The id field of the record an insert builds. -/
theorem getF_insFull_id (r : Rec) (freshId : Val) (ts : String) :
    getF (insFull r freshId ts) "_id" = some (insId r freshId) := by
  unfold insFull
  rw [getF_recSet_other _ _ _ _ (by decide), getF_recSet_other _ _ _ _ (by decide),
    getF_recSet_self]

/-- The `_created` field of the record an insert builds. -/
theorem getF_insFull_created (r : Rec) (freshId : Val) (ts : String) :
    getF (insFull r freshId ts) "_created" = some (.s ts) := by
  unfold insFull
  rw [getF_recSet_other _ _ _ _ (by decide), getF_recSet_self]

/-- The `_modified` field of the record an insert builds. -/
theorem getF_insFull_modified (r : Rec) (freshId : Val) (ts : String) :
    getF (insFull r freshId ts) "_modified" = some (.s ts) := by
  unfold insFull
  rw [getF_recSet_self]

/-- Every other field of the record an insert builds is the original's. -/
theorem getF_insFull_other (r : Rec) (freshId : Val) (ts : String) (k : String)
    (h1 : k ≠ "_id") (h2 : k ≠ "_created") (h3 : k ≠ "_modified") :
    getF (insFull r freshId ts) k = getF r k := by
  unfold insFull
  rw [getF_recSet_other _ _ _ _ (Ne.symm h3), getF_recSet_other _ _ _ _ (Ne.symm h2),
    getF_recSet_other _ _ _ _ (Ne.symm h1)]

/-- A query with no clauses at all executes as the bare scan: streamed when the
table is not fully resident, the in-memory scan otherwise. -/
theorem executeQ_emptyQuery (st : TState) :
    executeQ st emptyQuery =
      if st.data.length < st.recordCount then streamResultsT st emptyQuery
      else memScan st := by
  by_cases h : st.data.length < st.recordCount <;>
    simp [executeQ, emptyQuery, getIndexCandidateSetT, h]

/-- The streamed point lookup misses when no parsed line carries the id. -/
theorem fileFind_none (st : TState) (id : Val) (lines : List (Option Rec))
    (h : ∀ r : Rec, some r ∈ lines → getF r "_id" ≠ some id) :
    fileFind st id lines = none := by
  induction lines with
  | nil => rfl
  | cons l ls ih =>
    match l with
    | none =>
      exact ih (fun r hr => h r (List.mem_cons_of_mem _ hr))
    | some r =>
      have hne : getF r "_id" ≠ some id := h r (List.mem_cons_self _ _)
      simp only [fileFind]
      rw [if_neg]
      · exact ih (fun r' hr' => h r' (List.mem_cons_of_mem _ hr'))
      · simp [hne]

/-- A record surviving the pending-delete filter of the pending-write overlay
appears in the in-memory scan. -/
theorem mem_memScan_pendingWrites (st : TState) (r : Rec)
    (h2 : r ∈ st.pendingWrites) (hp : pdHasO st (getF r "_id") = false) :
    r ∈ memScan st := by
  unfold memScan
  refine List.mem_append_right _ ?_
  exact List.mem_filter.mpr ⟨h2, by simp [hp]⟩

/-- A record surviving the pending-delete filter of the pending-write overlay
appears in the streamed scan of a clause-free query. -/
theorem mem_streamResults_pendingWrites (st : TState) (r : Rec)
    (h2 : r ∈ st.pendingWrites) (hp : pdHasO st (getF r "_id") = false) :
    r ∈ streamResultsT st emptyQuery := by
  unfold streamResultsT
  refine List.mem_append_right _ ?_
  exact List.mem_filter.mpr ⟨h2, by simp [hp]⟩

/-- C10 — confirmed.  `get(id)` resolves visibility only through deletion
markers, pendingUpdates, the cache, the resident map and a streamed lookup of
the durable file, never consulting `pendingWrites`: a record that exists only
in `pendingWrites` (inserted but unflushed) and has dropped out of the cache is
invisible to `get`/`findById` (`none`), while query execution still returns
it. -/
theorem get_ignores_pendingWrites (st : TState) (r : Rec) (id : Val)
    (h1 : getF r "_id" = some id)
    (h2 : r ∈ st.pendingWrites)
    (h3 : st.deletedIds.contains id = false)
    (h4 : st.pendingDeletes.contains id = false)
    (h5 : puLookup st id = none)
    (h6 : st.cache.find id = none)
    (h7 : dataLookup st id = none)
    (h8 : ∀ rec : Rec, some rec ∈ st.fileLines.getD [] → getF rec "_id" ≠ some id) :
    getT st id = none ∧ r ∈ executeQ st emptyQuery := by
  have h3' : id ∉ st.deletedIds := by simpa using h3
  have h4' : id ∉ st.pendingDeletes := by simpa using h4
  constructor
  · unfold getT
    rw [if_neg (by simp [h3', h4'])]
    rw [h5, h6, h7]
    unfold loadRecordByIdT
    rw [if_neg (by simp [h3', h4']), h5, h7, h6]
    exact fileFind_none st id _ h8
  · rw [executeQ_emptyQuery]
    have hp : pdHasO st (getF r "_id") = false := by
      rw [h1]; simpa [pdHasO] using h4
    by_cases hres : st.data.length < st.recordCount
    · rw [if_pos hres]
      exact mem_streamResults_pendingWrites st r h2 hp
    · rw [if_neg hres]
      exact mem_memScan_pendingWrites st r h2 hp

/-- The record of the C10 witness: unflushed, uncached. -/
def cexRw : Rec := [("_id", .s "w"), ("x", .i 7)]

/-- The C10 witness state: the record sits only in `pendingWrites`. -/
def cexStC10 : TState := ⟨[], cexCache, [], [cexRw], [], [], [], none, none, 0, 1000⟩

/-- Witness for C10 at a concrete state. -/
theorem get_ignores_pendingWrites_witness :
    getT cexStC10 (.s "w") = none ∧ cexRw ∈ executeQ cexStC10 emptyQuery :=
  get_ignores_pendingWrites cexStC10 cexRw (.s "w") (by decide) (by decide)
    (by decide) (by decide) (by decide) (by decide) (by decide)
    (by intro rec h; simp [cexStC10] at h)

/-- The append-buffer flush leaves the tombstone sets untouched. -/
theorem flushOkT_deletedIds (s : TState) : (flushOkT s).deletedIds = s.deletedIds := by
  unfold flushOkT; split <;> rfl

/-- The append-buffer flush leaves the pending deletes untouched. -/
theorem flushOkT_pendingDeletes (s : TState) : (flushOkT s).pendingDeletes = s.pendingDeletes := by
  unfold flushOkT; split <;> rfl

/-- The append-buffer flush leaves the pending updates untouched. -/
theorem flushOkT_pendingUpdates (s : TState) : (flushOkT s).pendingUpdates = s.pendingUpdates := by
  unfold flushOkT; split <;> rfl

/-- The append-buffer flush leaves the cache untouched. -/
theorem flushOkT_cache (s : TState) : (flushOkT s).cache = s.cache := by
  unfold flushOkT; split <;> rfl

/-- A successful association lookup exhibits a member binding. -/
theorem alookup_mem {κ β : Type} [DecidableEq κ] (l : List (κ × β)) (k : κ) (v : β)
    (h : alookup l k = some v) : (k, v) ∈ l := by
  induction l with
  | nil => simp [alookup] at h
  | cons p rest ih =>
    by_cases hp : p.1 = k
    · rw [alookup, if_pos hp] at h
      have hv : p.2 = v := Option.some.inj h
      have hkv : (k, v) = p := by
        obtain ⟨a, b⟩ := p
        simp only at hp hv
        rw [hp, hv]
      rw [hkv]
      exact List.mem_cons_self _ _
    · rw [alookup, if_neg hp] at h
      exact List.mem_cons_of_mem _ (ih h)

/-- `get` after an insert returns the freshly built record whenever the id
carries no pending update: the cache entry written by the insert answers the
lookup, on either side of the batch-flush trigger. -/
theorem getT_insertT (st : TState) (r : Rec) (freshId : Val) (ts : String)
    (hpu : puLookup st (insId r freshId) = none) :
    getT (insertT st r freshId ts).1 (insId r freshId) = some (insFull r freshId ts) := by
  have key : ∀ s2 : TState,
      s2.deletedIds = delS st.deletedIds (insId r freshId) →
      s2.pendingDeletes = delS st.pendingDeletes (insId r freshId) →
      s2.pendingUpdates = st.pendingUpdates →
      s2.cache = st.cache.put (insId r freshId) (insFull r freshId ts) →
      getT s2 (insId r freshId) = some (insFull r freshId ts) := by
    intro s2 e1 e2 e3 e4
    have hd : (insId r freshId) ∉ s2.deletedIds := by
      rw [e1]; simpa using delS_contains_self st.deletedIds (insId r freshId)
    have hp : (insId r freshId) ∉ s2.pendingDeletes := by
      rw [e2]; simpa using delS_contains_self st.pendingDeletes (insId r freshId)
    unfold getT
    rw [if_neg (by simp [hd, hp])]
    have : puLookup s2 (insId r freshId) = none := by
      unfold puLookup at hpu ⊢; rw [e3]; exact hpu
    rw [this, e4, cache_put_find]
  unfold insertT
  dsimp only
  split
  · exact key _ (by rw [flushOkT_deletedIds]) (by rw [flushOkT_pendingDeletes])
      (by rw [flushOkT_pendingUpdates]) (by rw [flushOkT_cache])
  · exact key _ rfl rfl rfl rfl

/-- C9 — amended theorem.  Provided the record's assigned id carries no pending
update at insert time (as holds for every fresh insert), the value fetched by
`get` immediately after `insert(r)` is exactly `r` with `_id`, `_created` and
`_modified` populated, `_created = _modified = ts`, and every other field of
`r` preserved.  (The counterexample `insert_get_pendingUpdate_shadow` shows the
proviso is necessary: a pending update for the same id shadows the fresh
record.) -/
theorem fresh_insert_get_roundtrip (st : TState) (r : Rec) (freshId : Val) (ts : String)
    (hpu : puLookup st (insId r freshId) = none) :
    getT (insertT st r freshId ts).1 (insId r freshId) = some (insFull r freshId ts)
    ∧ getF (insFull r freshId ts) "_id" = some (insId r freshId)
    ∧ getF (insFull r freshId ts) "_created" = some (.s ts)
    ∧ getF (insFull r freshId ts) "_modified" = some (.s ts)
    ∧ (∀ k : String, k ≠ "_id" → k ≠ "_created" → k ≠ "_modified" →
        getF (insFull r freshId ts) k = getF r k) :=
  ⟨getT_insertT st r freshId ts hpu, getF_insFull_id r freshId ts,
    getF_insFull_created r freshId ts, getF_insFull_modified r freshId ts,
    fun k h1 h2 h3 => getF_insFull_other r freshId ts k h1 h2 h3⟩

/-- Witness for C9: a concrete fresh insert into the empty table. -/
theorem fresh_insert_get_roundtrip_witness :
    puLookup cexSt0 (insId [("x", Val.i 1)] (.s "u")) = none
    ∧ getT (insertT cexSt0 [("x", Val.i 1)] (.s "u") "t").1 (insId [("x", Val.i 1)] (.s "u"))
        = some (insFull [("x", Val.i 1)] (.s "u") "t") :=
  ⟨by decide,
    (fresh_insert_get_roundtrip cexSt0 [("x", Val.i 1)] (.s "u") "t" (by decide)).1⟩

/-- C8 — amended theorem.  Re-inserting a record whose id is already resident
overwrites the value visible to `get` — the fresh full record answers the
lookup, provided no pending update shadows the id — but it does *not*
deduplicate query execution: both the superseded resident record and the fresh
pending write remain visible to `execute` until a flush and compaction
consolidate them (the counterexample `reinsert_duplicates_query_results` shows
the duplication concretely). -/
theorem reinsert_overwrites_get (st : TState) (r oldRec : Rec) (freshId : Val) (ts : String)
    (hold : dataLookup st (insId r freshId) = some oldRec)
    (hpu : puLookup st (insId r freshId) = none)
    (hbatch : st.pendingWrites.length + 1 < st.batchSize)
    (hmem : st.recordCount ≤ st.data.length) :
    getT (insertT st r freshId ts).1 (insId r freshId) = some (insFull r freshId ts)
    ∧ insFull r freshId ts ∈ executeQ (insertT st r freshId ts).1 emptyQuery
    ∧ oldRec ∈ executeQ (insertT st r freshId ts).1 emptyQuery := by
  have hins : (insertT st r freshId ts).1 =
      { st with
        cache := st.cache.put (insId r freshId) (insFull r freshId ts),
        indices := updateIndicesT st.indices (insId r freshId) none (some (insFull r freshId ts)),
        deletedIds := delS st.deletedIds (insId r freshId),
        pendingDeletes := delS st.pendingDeletes (insId r freshId),
        pendingWrites := st.pendingWrites ++ [insFull r freshId ts] } := by
    unfold insertT
    dsimp only
    rw [if_neg]
    intro hge
    simp only [List.length_append, List.length_cons, List.length_nil] at hge
    omega
  refine ⟨getT_insertT st r freshId ts hpu, ?_, ?_⟩
  · rw [hins, executeQ_emptyQuery]
    rw [if_neg (by simpa using not_lt_of_ge hmem)]
    refine mem_memScan_pendingWrites _ _ ?_ ?_
    · exact List.mem_append_right _ (List.mem_cons_self _ _)
    · rw [getF_insFull_id]
      simpa [pdHasO] using delS_contains_self st.pendingDeletes (insId r freshId)
  · rw [hins, executeQ_emptyQuery]
    rw [if_neg (by simpa using not_lt_of_ge hmem)]
    unfold memScan
    refine List.mem_append_left _ ?_
    refine List.mem_filterMap.mpr ⟨(insId r freshId, oldRec), alookup_mem _ _ _ hold, ?_⟩
    rw [if_neg]
    · unfold puLookup
      dsimp only
      unfold puLookup at hpu
      rw [hpu]
      rfl
    · simp only
      simpa using delS_contains_self st.pendingDeletes (insId r freshId)

/-- The resident record the C8 witness re-inserts over. -/
def cexOld : Rec := [("_id", .s "a"), ("x", .i 1), ("_created", .s "t0"), ("_modified", .s "t0")]

/-- The C8 witness state: id `a` already durable and resident. -/
def cexStC8 : TState :=
  ⟨[(.s "a", cexOld)], cexCache, [], [], [], [], [], some [some cexOld], none, 1, 1000⟩

/-- Witness for C8 at a concrete state. -/
theorem reinsert_overwrites_get_witness :
    dataLookup cexStC8 (insId [("_id", Val.s "a"), ("x", Val.i 2)] (.s "u")) = some cexOld
    ∧ getT (insertT cexStC8 [("_id", Val.s "a"), ("x", Val.i 2)] (.s "u") "t1").1
        (insId [("_id", Val.s "a"), ("x", Val.i 2)] (.s "u"))
        = some (insFull [("_id", Val.s "a"), ("x", Val.i 2)] (.s "u") "t1") :=
  ⟨by decide,
    (reinsert_overwrites_get cexStC8 [("_id", Val.s "a"), ("x", Val.i 2)] cexOld (.s "u") "t1"
      (by decide) (by decide) (by decide) (by decide)).1⟩

/-- A flush of an empty append buffer is a no-op. -/
theorem flushOkT_of_empty (st : TState) (hpw : st.pendingWrites = []) :
    flushOkT st = st := by
  unfold flushOkT
  rw [hpw]
  rfl

/-- An injected failure at any operation up to and including the stream end
makes the write loop raise. -/
theorem writeLoop_err (ws : List Rec) : ∀ (i : Nat) (acc : List Rec) (j : Nat),
    i ≤ j → j ≤ i + ws.length → writeLoop ws i acc (some j) = .error () := by
  induction ws with
  | nil =>
    intro i acc j h1 h2
    have hj : j = i := by simpa using le_antisymm h2 h1
    unfold writeLoop
    rw [if_pos (by rw [hj])]
  | cons w ws ih =>
    intro i acc j h1 h2
    by_cases hj : j = i
    · unfold writeLoop
      rw [if_pos (by rw [hj])]
    · unfold writeLoop
      rw [if_neg (by simpa using hj)]
      exact ih (i + 1) (acc ++ [w]) j (by omega)
        (by simp only [List.length_cons] at h2; omega)

/-- Without failure injection the write loop emits every record. -/
theorem writeLoop_ok (ws : List Rec) : ∀ (i : Nat) (acc : List Rec),
    writeLoop ws i acc none = .ok (acc ++ ws) := by
  induction ws with
  | nil =>
    intro i acc
    unfold writeLoop
    simp
  | cons w ws ih =>
    intro i acc
    unfold writeLoop
    rw [if_neg (by simp)]
    rw [ih]
    simp

/-- C4 — confirmed.  If any I/O operation of the compaction write phase fails
before the rename (any write, or the stream end), `save()` re-raises the error,
deletes the temporary file, and leaves the durable file and the
`pendingUpdates`/`pendingDeletes`/`deletedIds` buffers untouched, so a retry
redoes the same work.  (`pendingWrites = []` makes the preceding append-buffer
flush a no-op, isolating the compaction phase the claim speaks about.) -/
theorem save_failure_preserves_state (st : TState) (tf : Bool) (k : Nat)
    (hpw : st.pendingWrites = [])
    (hgo : (!needsCompactionT st tf && st.pendingUpdates.isEmpty
        && st.pendingDeletes.isEmpty) = false)
    (hk : k ≤ (compactionLines st).length) :
    (saveT st tf (some k)).1 = .error ()
    ∧ (saveT st tf (some k)).2.fileLines = st.fileLines
    ∧ (saveT st tf (some k)).2.pendingUpdates = st.pendingUpdates
    ∧ (saveT st tf (some k)).2.pendingDeletes = st.pendingDeletes
    ∧ (saveT st tf (some k)).2.deletedIds = st.deletedIds
    ∧ (saveT st tf (some k)).2.tempFile = none := by
  have hcl : compactionLines { st with tempFile := some [] } = compactionLines st := rfl
  have herr : writeLoop (compactionLines { st with tempFile := some [] }) 0 [] (some k)
      = .error () := by
    rw [hcl]
    exact writeLoop_err _ 0 [] k (Nat.zero_le _) (by simpa using hk)
  simp only [saveT, flushOkT_of_empty st hpw, hgo, Bool.false_eq_true, if_false, herr]
  exact ⟨trivial, trivial, trivial, trivial, trivial, trivial⟩

/-- The state of the C3/C4 witnesses: a durable file with a duplicated id and a
malformed line, a pending delete, a pending update and a resident-only
record. -/
def cexStSave : TState :=
  ⟨[(.s "1", [("_id", .s "1"), ("v", .i 10)]), (.s "4", [("_id", .s "4"), ("v", .i 40)])],
    cexCache, [], [],
    [(.s "2", [("_id", .s "2"), ("v", .i 21)])],
    [.s "3"], [],
    some [some [("_id", .s "1"), ("v", .i 10)],
          some [("_id", .s "2"), ("v", .i 20)],
          some [("_id", .s "1"), ("v", .i 11)],
          none,
          some [("_id", .s "3"), ("v", .i 30)]],
    none, 3, 1000⟩

/-- Witness for C4 at a concrete state, failing at the second write. -/
theorem save_failure_preserves_state_witness :
    cexStSave.pendingWrites = []
    ∧ (saveT cexStSave false (some 1)).1 = .error ()
    ∧ (saveT cexStSave false (some 1)).2.fileLines = cexStSave.fileLines
    ∧ (saveT cexStSave false (some 1)).2.pendingUpdates = cexStSave.pendingUpdates :=
  ⟨by decide,
    (save_failure_preserves_state cexStSave false 1 (by decide) (by decide) (by decide)).1,
    (save_failure_preserves_state cexStSave false 1 (by decide) (by decide) (by decide)).2.1,
    (save_failure_preserves_state cexStSave false 1 (by decide) (by decide) (by decide)).2.2.1⟩

/-- Keep only the first occurrence of each `_id` (ids in `seen` are dropped
outright) — the dedup policy of the claim. -/
def dedupFirstAux : List Rec → List (Option Val) → List Rec
  | [], _ => []
  | r :: rs, seen =>
    if seen.contains (getF r "_id") then dedupFirstAux rs seen
    else r :: dedupFirstAux rs (getF r "_id" :: seen)

/-- The compaction output as the claim words it: one line per first occurrence
of each id in the durable file — deleted ids omitted, pending-update values
substituted — followed by the resident records whose id never appeared in the
file, under the same substitution. -/
def specCompaction (st : TState) : List Rec :=
  let recs := (st.fileLines.getD []).filterMap (fun x => x)
  (dedupFirstAux recs []).filterMap (fun r =>
    if isDelO st.pendingDeletes st.deletedIds (getF r "_id") then none
    else some (applyPUO st.pendingUpdates r))
  ++ st.data.filterMap (fun p =>
    if (recs.map (fun r => getF r "_id")).contains (some p.1)
        || st.pendingDeletes.contains p.1 || st.deletedIds.contains p.1 then none
    else some ((alookup st.pendingUpdates p.1).getD p.2))

/-- The file pass equals dedup-by-first-occurrence followed by the
delete/update substitution, for every starting `seen` set. -/
theorem filePassAux_eq_dedup (pd del : List Val) (pu : List (Val × Rec)) :
    ∀ (lines : List (Option Rec)) (seen : List (Option Val)),
      filePassAux pd del pu lines seen =
        (dedupFirstAux (lines.filterMap (fun x => x)) seen).filterMap (fun r =>
          if isDelO pd del (getF r "_id") then none else some (applyPUO pu r)) := by
  intro lines
  induction lines with
  | nil => intro seen; rfl
  | cons l ls ih =>
    intro seen
    match l with
    | none =>
      simpa [filePassAux, List.filterMap_cons] using ih seen
    | some r =>
      by_cases hs : getF r "_id" ∈ seen
      · simp [filePassAux, dedupFirstAux, hs, ih]
      · by_cases hd : isDelO pd del (getF r "_id")
        · simp [filePassAux, dedupFirstAux, hs, hd, ih, List.filterMap_cons]
        · simp [filePassAux, dedupFirstAux, hs, hd, ih, List.filterMap_cons]

/-- Membership in the accumulated `processedIds` set is membership in either
the starting set or the file's parsed id list. -/
theorem seenAux_mem :
    ∀ (lines : List (Option Rec)) (seen : List (Option Val)) (k : Option Val),
      k ∈ seenAux lines seen ↔
        (k ∈ seen
          ∨ k ∈ (lines.filterMap (fun x => x)).map (fun r => getF r "_id")) := by
  intro lines
  induction lines with
  | nil => intro seen k; simp [seenAux]
  | cons l ls ih =>
    intro seen k
    match l with
    | none =>
      simpa [seenAux] using ih seen k
    | some r =>
      simp only [seenAux, List.filterMap_cons, List.map_cons, List.mem_cons]
      by_cases hs : getF r "_id" ∈ seen
      · rw [if_pos (by simpa using hs)]
        rw [ih seen k]
        constructor
        · intro h; tauto
        · intro h
          rcases h with h | h | h
          · tauto
          · subst h; tauto
          · tauto
      · rw [if_neg (by simpa using hs)]
        rw [ih _ k]
        simp only [List.mem_cons]
        tauto

/-- Two lists with the same membership have the same `contains` answers. -/
theorem contains_eq_of_mem_iff {l1 l2 : List (Option Val)} {k : Option Val}
    (h : k ∈ l1 ↔ k ∈ l2) : l1.contains k = l2.contains k := by
  by_cases hm : k ∈ l1
  · simp [hm, h.mp hm]
  · have hm2 : k ∉ l2 := fun hc => hm (h.mpr hc)
    simp [hm, hm2]

/-- The record sequence `save()` writes equals the claim's description of it. -/
theorem compactionLines_eq_spec (st : TState) :
    compactionLines st = specCompaction st := by
  simp only [compactionLines, specCompaction]
  congr 1
  · exact filePassAux_eq_dedup st.pendingDeletes st.deletedIds st.pendingUpdates _ []
  · simp only [residentPass]
    have hfun : (fun p : Val × Rec =>
        if (seenAux (st.fileLines.getD []) []).contains (some p.1)
            || st.pendingDeletes.contains p.1 || st.deletedIds.contains p.1 then none
        else some ((alookup st.pendingUpdates p.1).getD p.2))
        = (fun p : Val × Rec =>
        if (((st.fileLines.getD []).filterMap (fun x => x)).map
              (fun r => getF r "_id")).contains (some p.1)
            || st.pendingDeletes.contains p.1 || st.deletedIds.contains p.1 then none
        else some ((alookup st.pendingUpdates p.1).getD p.2)) := by
      funext p
      have hc : (seenAux (st.fileLines.getD []) []).contains (some p.1)
          = (((st.fileLines.getD []).filterMap (fun x => x)).map
              (fun r => getF r "_id")).contains (some p.1) :=
        contains_eq_of_mem_iff (by simp [seenAux_mem])
      rw [hc]
    rw [hfun]

/-- C3 — confirmed.  A failure-free `save()` that actually compacts (the
append buffer already empty, the skip guard not taken) leaves the durable file
holding exactly the claim's described output: one line per first occurrence of
each id in the old file — later duplicates ignored, deleted ids omitted,
pending-update values substituted — followed by the resident records never seen
during the file pass under the same substitution; the temporary file is gone
after the rename. -/
theorem save_compaction_matches_spec (st : TState) (tf : Bool)
    (hpw : st.pendingWrites = [])
    (hgo : (!needsCompactionT st tf && st.pendingUpdates.isEmpty
        && st.pendingDeletes.isEmpty) = false) :
    (saveT st tf none).1 = .ok ()
    ∧ (saveT st tf none).2.fileLines = some ((specCompaction st).map some)
    ∧ (saveT st tf none).2.tempFile = none := by
  have hcl : compactionLines { st with tempFile := some [] } = compactionLines st := rfl
  have hok : writeLoop (compactionLines { st with tempFile := some [] }) 0 [] none
      = .ok (specCompaction st) := by
    rw [hcl, writeLoop_ok, List.nil_append, compactionLines_eq_spec]
  have hniln : ((none : Option Nat)
      = some ((compactionLines { st with tempFile := some [] }).length + 1)) ↔ False := by
    simp
  simp only [saveT, flushOkT_of_empty st hpw, hgo, Bool.false_eq_true, if_false, hok,
    hniln, if_false]
  exact ⟨trivial, trivial, trivial⟩

/-- Witness for C3 at the concrete state `cexStSave`: the compaction output
keeps the first line of the duplicated id `1`, drops the deleted id `3`,
substitutes the pending update of id `2`, and appends the resident-only id
`4`. -/
theorem save_compaction_matches_spec_witness :
    cexStSave.pendingWrites = []
    ∧ (saveT cexStSave false none).1 = .ok ()
    ∧ (saveT cexStSave false none).2.fileLines
        = some [some [("_id", .s "1"), ("v", .i 10)],
                some [("_id", .s "2"), ("v", .i 21)],
                some [("_id", .s "4"), ("v", .i 40)]] :=
  ⟨by decide,
    (save_compaction_matches_spec cexStSave false (by decide) (by decide)).1,
    by
      rw [(save_compaction_matches_spec cexStSave false (by decide) (by decide)).2.1]
      decide⟩

/-- The truthy numeric values of a field across a result list — exactly the
values that participate in the engine's min/max (present *and* nonzero). -/
def truthyVals (rs : List Rec) (f : String) : List ℚ :=
  rs.filterMap (fun r =>
    match getF r f with
    | some (.i n) => if n = 0 then none else some ((n : ℚ))
    | _ => none)

/-- The structural minimum of a rational list. -/
def qMin : List ℚ → Option ℚ
  | [] => none
  | q :: l => some (match qMin l with | none => q | some m => min q m)

/-- The structural maximum of a rational list. -/
def qMax : List ℚ → Option ℚ
  | [] => none
  | q :: l => some (match qMax l with | none => q | some m => max q m)

/-- An absent minimum is `Infinity`. -/
def liftMin : Option ℚ → JNum
  | none => .pinf
  | some m => .fin m

/-- An absent maximum is `-Infinity`. -/
def liftMax : Option ℚ → JNum
  | none => .ninf
  | some m => .fin m

/-- `Infinity` is a right identity of `Math.min`. -/
theorem minJ_pinf_right (x : JNum) : minJ x .pinf = x := by
  cases x <;> rfl

/-- `-Infinity` is a right identity of `Math.max`. -/
theorem maxJ_ninf_right (x : JNum) : maxJ x .ninf = x := by
  cases x <;> rfl

/-- `Infinity` is a left identity of `Math.min`. -/
theorem minJ_pinf_left (x : JNum) : minJ .pinf x = x := by
  cases x <;> rfl

/-- `-Infinity` is a left identity of `Math.max`. -/
theorem maxJ_ninf_left (x : JNum) : maxJ .ninf x = x := by
  cases x <;> rfl

/-- `Math.min` is associative. -/
theorem minJ_assoc (a bv c : JNum) : minJ (minJ a bv) c = minJ a (minJ bv c) := by
  cases a <;> cases bv <;> cases c <;> simp [minJ, min_assoc]

/-- `Math.max` is associative. -/
theorem maxJ_assoc (a bv c : JNum) : maxJ (maxJ a bv) c = maxJ a (maxJ bv c) := by
  cases a <;> cases bv <;> cases c <;> simp [maxJ, max_assoc]

/-- Folding `Math.min` over a rational list computes its structural minimum. -/
theorem foldl_minJ (l : List ℚ) : ∀ acc : JNum,
    l.foldl (fun a q => minJ a (.fin q)) acc = minJ acc (liftMin (qMin l)) := by
  induction l with
  | nil => intro acc; simp [qMin, liftMin, minJ_pinf_right]
  | cons q l ih =>
    intro acc
    simp only [List.foldl_cons, ih, qMin, liftMin]
    match hq : qMin l with
    | none => simp [hq, liftMin, minJ_pinf_right]
    | some m =>
      simp only [hq, liftMin]
      rw [minJ_assoc]
      rfl

/-- Folding `Math.max` over a rational list computes its structural maximum. -/
theorem foldl_maxJ (l : List ℚ) : ∀ acc : JNum,
    l.foldl (fun a q => maxJ a (.fin q)) acc = maxJ acc (liftMax (qMax l)) := by
  induction l with
  | nil => intro acc; simp [qMax, liftMax, maxJ_ninf_right]
  | cons q l ih =>
    intro acc
    simp only [List.foldl_cons, ih, qMax, liftMax]
    match hq : qMax l with
    | none => simp [hq, liftMax, maxJ_ninf_right]
    | some m =>
      simp only [hq, liftMax]
      rw [maxJ_assoc]
      rfl

/-- The engine's min fold over records equals the min fold over the truthy
values only: falsy keys (missing or zero) are dropped as `Infinity`. -/
theorem foldl_minKey (f : String) (rs : List Rec) : ∀ acc : JNum,
    rs.foldl (fun acc r => minJ acc (minKey r f)) acc
      = (truthyVals rs f).foldl (fun a q => minJ a (.fin q)) acc := by
  induction rs with
  | nil => intro acc; rfl
  | cons r rs ih =>
    intro acc
    simp only [List.foldl_cons, truthyVals, List.filterMap_cons]
    match hg : getF r f with
    | some (.i n) =>
      by_cases hn : n = 0
      · simp [minKey, hg, hn, minJ_pinf_right]
        simpa [truthyVals] using ih acc
      · simp only [minKey, hg, hn, if_neg, List.foldl_cons]
        simpa [truthyVals] using ih (minJ acc (.fin (n : ℚ)))
    | some (.s sv) =>
      simp [minKey, hg, minJ_pinf_right]
      simpa [truthyVals] using ih acc
    | some (.b bb) =>
      simp [minKey, hg, minJ_pinf_right]
      simpa [truthyVals] using ih acc
    | none =>
      simp [minKey, hg, minJ_pinf_right]
      simpa [truthyVals] using ih acc

/-- The engine's max fold over records equals the max fold over the truthy
values only: falsy keys (missing or zero) are dropped as `-Infinity`. -/
theorem foldl_maxKey (f : String) (rs : List Rec) : ∀ acc : JNum,
    rs.foldl (fun acc r => maxJ acc (maxKey r f)) acc
      = (truthyVals rs f).foldl (fun a q => maxJ a (.fin q)) acc := by
  induction rs with
  | nil => intro acc; rfl
  | cons r rs ih =>
    intro acc
    simp only [List.foldl_cons, truthyVals, List.filterMap_cons]
    match hg : getF r f with
    | some (.i n) =>
      by_cases hn : n = 0
      · simp [maxKey, hg, hn, maxJ_ninf_right]
        simpa [truthyVals] using ih acc
      · simp only [maxKey, hg, hn, if_neg, List.foldl_cons]
        simpa [truthyVals] using ih (maxJ acc (.fin (n : ℚ)))
    | some (.s sv) =>
      simp [maxKey, hg, maxJ_ninf_right]
      simpa [truthyVals] using ih acc
    | some (.b bb) =>
      simp [maxKey, hg, maxJ_ninf_right]
      simpa [truthyVals] using ih acc
    | none =>
      simp [maxKey, hg, maxJ_ninf_right]
      simpa [truthyVals] using ih acc

/-- The running sum over records equals the map-sum of per-record numeric
contributions. -/
theorem foldl_sum (f : String) (rs : List Rec) : ∀ acc : ℚ,
    rs.foldl (fun s r => s + jsNumOr0 r f) acc
      = acc + (rs.map (fun r => jsNumOr0 r f)).sum := by
  induction rs with
  | nil => intro acc; simp
  | cons r rs ih =>
    intro acc
    simp only [List.foldl_cons, List.map_cons, List.sum_cons, ih]
    ring

/-- C7 — amended theorem.  Per output key, `aggregate` computes: sum and
average over every record, a record contributing its numeric field value or
`0` when the field is missing *or falsy*; count as the result length; and
min/max over exactly the truthy (present and nonzero) values of the field —
missing values *and present zeroes alike* are excluded from min and max,
yielding `Infinity`/`-Infinity` when no truthy value exists.  (The
counterexample `aggregate_min_excludes_zero` pins the needed amendment:
present zeroes do not participate in min/max.) -/
theorem aggregate_falsy_characterization (rs : List Rec) (f : String) :
    aggOne rs (.sum f) = .fin ((rs.map (fun r => jsNumOr0 r f)).sum)
    ∧ aggOne rs (.avg f)
        = (if rs.length > 0
           then .fin ((rs.map (fun r => jsNumOr0 r f)).sum / (rs.length : ℚ))
           else .fin 0)
    ∧ aggOne rs (.amin f) = liftMin (qMin (truthyVals rs f))
    ∧ aggOne rs (.amax f) = liftMax (qMax (truthyVals rs f))
    ∧ aggOne rs .cnt = .fin ((rs.length : ℚ)) := by
  refine ⟨?_, ?_, ?_, ?_, rfl⟩
  · show JNum.fin (rs.foldl (fun s r => s + jsNumOr0 r f) 0) = _
    rw [foldl_sum]
    rw [zero_add]
  · show (if rs.length > 0
        then JNum.fin ((rs.foldl (fun s r => s + jsNumOr0 r f) 0) / (rs.length : ℚ))
        else .fin 0) = _
    rw [foldl_sum]
    rw [zero_add]
  · show rs.foldl (fun acc r => minJ acc (minKey r f)) .pinf = _
    rw [foldl_minKey, foldl_minJ, minJ_pinf_left]
  · show rs.foldl (fun acc r => maxJ acc (maxKey r f)) .ninf = _
    rw [foldl_maxKey, foldl_maxJ, maxJ_ninf_left]

/-! ### C2: index path vs. residual scan -/

/-- The value visible for an id through the overlay `executeWithIndex` and the
in-memory scan agree on: pending delete → absent, else pending update, else
resident. -/
def visById (st : TState) (id : Val) : Option Rec :=
  if st.pendingDeletes.contains id then none
  else match puLookup st id with
  | some r => some r
  | none => dataLookup st id

/-- Membership in a JS-`Set` add. -/
theorem mem_addS (l : List Val) (x y : Val) :
    y ∈ addS l x ↔ y ∈ l ∨ y = x := by
  unfold addS
  by_cases hc : l.contains x
  · rw [if_pos hc]
    have hx : x ∈ l := by simpa using hc
    constructor
    · exact fun h => Or.inl h
    · rintro (h | h)
      · exact h
      · rw [h]; exact hx
  · rw [if_neg hc]
    simp

/-- Membership in a JS-`Set` built by repeated adds. -/
theorem mem_foldl_addS (l : List Val) : ∀ (acc : List Val) (y : Val),
    y ∈ l.foldl addS acc ↔ y ∈ acc ∨ y ∈ l := by
  induction l with
  | nil => intro acc y; simp
  | cons x xs ih =>
    intro acc y
    simp only [List.foldl_cons, ih, mem_addS, List.mem_cons]
    tauto

/-- With duplicate-free keys, a member binding is the association lookup. -/
theorem mem_alookup_of_nodup {κ β : Type} [DecidableEq κ]
    (l : List (κ × β)) (hnd : (l.map Prod.fst).Nodup) (k : κ) (v : β)
    (hm : (k, v) ∈ l) : alookup l k = some v := by
  induction l with
  | nil => cases hm
  | cons p rest ih =>
    rw [List.map_cons, List.nodup_cons] at hnd
    rcases List.mem_cons.mp hm with he | hm'
    · rw [← he]
      unfold alookup
      rw [if_pos rfl]
    · by_cases hp : p.1 = k
      · exfalso
        apply hnd.1
        rw [hp]
        exact List.mem_map.mpr ⟨(k, v), hm', rfl⟩
      · unfold alookup
        rw [if_neg hp]
        exact ih hnd.2 hm'

/-- A single `$eq` clause evaluates to the strict-equality test. -/
theorem buildConditionT_eq (f : String) (v : Val) (r : Rec) :
    buildConditionT [(f, .op (opEq v))] r = (getF r f == some v) := by
  simp [buildConditionT, evaluateOperatorT, opEq, OpObj.none']

/-- The query `where({f: {$eq: v}})` over a hash-indexed field is classified
as one exact index-eligible clause with no residual conditions. -/
theorem whereEq_query (im : IdxMap) (f : String) (v : Val)
    (hh : List (Val × List Val)) (h3 : alookup im f = some (.hash hh)) :
    whereObjT im emptyQuery [(f, .op (opEq v))] =
      { conditions := [buildConditionT [(f, .op (opEq v))]],
        idxConds := [⟨f, opEq v, CType.exact⟩], nonIdx := [],
        sortField := none, sortOrder := "asc", limit := none, skip := 0,
        select := none } := by
  simp [whereObjT, analyzeConditionT, emptyQuery, hasIndexT, h3, getIndexTypeT,
    opEq, OpObj.none']

/-- Executing `where({f: {$eq: v}})` over a hash-indexed field resolves the
bucket's candidate ids (deduplicated, in bucket order) and nothing else. -/
theorem executeQ_whereEq (st : TState) (f : String) (v : Val)
    (hh : List (Val × List Val)) (h3 : alookup st.indices f = some (.hash hh)) :
    executeQ st (whereObjT st.indices emptyQuery [(f, .op (opEq v))])
      = executeWithIndexT st (((alookup hh v).getD []).foldl addS []) := by
  rw [whereEq_query st.indices f v hh h3]
  have hcand : getIndexCandidateSetT st.indices
      { conditions := [buildConditionT [(f, .op (opEq v))]],
        idxConds := [⟨f, opEq v, CType.exact⟩], nonIdx := [],
        sortField := none, sortOrder := "asc", limit := none, skip := 0,
        select := none }
      = some (((alookup hh v).getD []).foldl addS []) := by
    simp [getIndexCandidateSetT, gicGo, clauseIds, findByIndexT, h3, opEq, OpObj.none']
  simp only [executeQ, hcand]
  by_cases hcs : (((alookup hh v).getD []).foldl addS []).isEmpty
  · rw [List.isEmpty_iff] at hcs
    simp [hcs, executeWithIndexT]
  · simp [hcs]

/-- C2 — amended theorem.  Over a table whose pending-write buffer is empty,
whose resident keys are duplicate-free, whose pending updates all shadow
resident ids, and whose hash index for `f` is *consistent* — the bucket for
`v` holds exactly the ids whose visible record carries value `v` —
`find({f: {$eq: v}}).execute()` returns exactly the records of the unindexed
residual scan with the same predicate (including empty results for values
absent from the index).  The consistency proviso is forced by the
counterexample `find_eq_index_scan_mismatch`, where a stale sorted-index entry
makes the two sides differ; full residency is forced by `get`'s blindness to
`pendingWrites` (claim C10). -/
theorem find_eq_matches_residual_scan (st : TState) (f : String) (v : Val)
    (hh : List (Val × List Val))
    (h1 : st.pendingWrites = [])
    (h2 : (st.data.map Prod.fst).Nodup)
    (h3 : alookup st.indices f = some (.hash hh))
    (h4 : ∀ id : Val, id ∈ (alookup hh v).getD [] ↔
        (∃ rec : Rec, visById st id = some rec ∧ getF rec f = some v))
    (h6 : ∀ id : Val, (puLookup st id).isSome → (dataLookup st id).isSome) :
    ∀ r : Rec,
      r ∈ executeQ st (whereObjT st.indices emptyQuery [(f, .op (opEq v))])
        ↔ r ∈ residualScan st (buildConditionT [(f, .op (opEq v))]) := by
  intro r
  rw [executeQ_whereEq st f v hh h3]
  have hres : ∀ id : Val, id ∈ (alookup hh v).getD [] →
      (if st.pendingDeletes.contains id then none
       else match puLookup st id with
       | some rr => some rr
       | none =>
         match dataLookup st id with
         | some rr => some rr
         | none => loadRecordByIdT st id) = visById st id := by
    intro id hid
    obtain ⟨rec, hvis, -⟩ := (h4 id).mp hid
    unfold visById at hvis ⊢
    by_cases hpd : id ∈ st.pendingDeletes
    · simp [hpd]
    · have hc : st.pendingDeletes.contains id = false := by simpa using hpd
      simp only [hc, Bool.false_eq_true, if_false] at hvis ⊢
      match hpu : puLookup st id with
      | some rr => simp [hpu]
      | none =>
        simp only [hpu] at hvis ⊢
        match hda : dataLookup st id with
        | some rr => simp [hda]
        | none => rw [hda] at hvis; cases hvis
  have lhs_iff : r ∈ executeWithIndexT st (((alookup hh v).getD []).foldl addS [])
      ↔ ∃ id : Val, visById st id = some r ∧ getF r f = some v := by
    unfold executeWithIndexT
    rw [List.mem_filterMap]
    constructor
    · rintro ⟨id, hmem, hfid⟩
      have hid : id ∈ (alookup hh v).getD [] := by
        have := (mem_foldl_addS _ [] id).mp hmem
        simpa using this
      rw [hres id hid] at hfid
      obtain ⟨rec, hvis, hval⟩ := (h4 id).mp hid
      have : rec = r := by
        rw [hvis] at hfid
        exact Option.some.inj hfid
      exact ⟨id, hfid, this ▸ hval⟩
    · rintro ⟨id, hvis, hval⟩
      have hid : id ∈ (alookup hh v).getD [] := (h4 id).mpr ⟨r, hvis, hval⟩
      refine ⟨id, (mem_foldl_addS _ [] id).mpr (Or.inr hid), ?_⟩
      rw [hres id hid]
      exact hvis
  have rhs_iff : r ∈ residualScan st (buildConditionT [(f, .op (opEq v))])
      ↔ ∃ id : Val, visById st id = some r ∧ getF r f = some v := by
    unfold residualScan
    rw [List.mem_filter]
    have hmem_scan : r ∈ memScan st ↔ ∃ id : Val, visById st id = some r := by
      unfold memScan
      rw [h1]
      simp only [List.filter_nil, List.append_nil, List.mem_filterMap]
      constructor
      · rintro ⟨p, hp, hpr⟩
        by_cases hpd : st.pendingDeletes.contains p.1
        · rw [if_pos hpd] at hpr; cases hpr
        · rw [if_neg hpd] at hpr
          refine ⟨p.1, ?_⟩
          unfold visById
          rw [if_neg hpd]
          have hda : dataLookup st p.1 = some p.2 := by
            unfold dataLookup
            exact mem_alookup_of_nodup st.data h2 p.1 p.2 (by
              simpa using hp)
          match hpu : puLookup st p.1 with
          | some rr =>
            rw [hpu] at hpr
            simpa using hpr
          | none =>
            rw [hpu] at hpr
            rw [hda]
            simpa using hpr
      · rintro ⟨id, hvis⟩
        unfold visById at hvis
        by_cases hpd : st.pendingDeletes.contains id
        · rw [if_pos hpd] at hvis; cases hvis
        · rw [if_neg hpd] at hvis
          match hpu : puLookup st id with
          | some rr =>
            rw [hpu] at hvis
            have hda : (dataLookup st id).isSome := h6 id (by rw [hpu]; rfl)
            match hda2 : dataLookup st id with
            | some rec0 =>
              refine ⟨(id, rec0), alookup_mem _ _ _ hda2, ?_⟩
              rw [if_neg hpd, hpu]
              simpa using hvis
            | none => rw [hda2] at hda; cases hda
          | none =>
            rw [hpu] at hvis
            match hda2 : dataLookup st id with
            | some rec0 =>
              refine ⟨(id, rec0), alookup_mem _ _ _ hda2, ?_⟩
              rw [if_neg hpd, hpu]
              rw [hda2] at hvis
              simpa using hvis
            | none => rw [hda2] at hvis; cases hvis
    rw [hmem_scan, buildConditionT_eq]
    constructor
    · rintro ⟨⟨id, hvis⟩, hbeq⟩
      exact ⟨id, hvis, by simpa using hbeq⟩
    · rintro ⟨id, hvis, hval⟩
      exact ⟨⟨id, hvis⟩, by simp [hval]⟩
  rw [lhs_iff, rhs_iff]

/-- The single record of the C2 witness table. -/
def cexRaW : Rec := [("_id", .s "a"), ("f", .i 1)]

/-- The C2 witness table: fully resident, one record, a consistent hash index
on `f`. -/
def cexStW : TState :=
  ⟨[(.s "a", cexRaW)], cexCache, [("f", .hash [(.i 1, [.s "a"])])], [], [], [], [],
    some [some cexRaW], none, 1, 1000⟩

/-- Witness for C2 at a concrete consistent state. -/
theorem find_eq_matches_residual_scan_witness :
    cexRaW ∈ executeQ cexStW (whereObjT cexStW.indices emptyQuery
        [("f", CondV.op (opEq (.i 1)))])
      ↔ cexRaW ∈ residualScan cexStW (buildConditionT [("f", CondV.op (opEq (.i 1)))]) :=
  find_eq_matches_residual_scan cexStW "f" (.i 1) [(.i 1, [Val.s "a"])]
    (by decide) (by decide) (by decide)
    (by
      intro id
      constructor
      · intro hid
        have hida : id = .s "a" := by simpa [alookup] using hid
        subst hida
        exact ⟨cexRaW, rfl, rfl⟩
      · rintro ⟨rec, hvis, hval⟩
        by_cases hid : id = .s "a"
        · subst hid
          simp [alookup]
        · exfalso
          unfold visById puLookup dataLookup alookup at hvis
          simp [cexStW, Ne.symm hid, alookup] at hvis)
    (by
      intro id h
      simp [puLookup, alookup, cexStW] at h)
    cexRaW
